import Mathlib

/-!
Verification of the lrs-dashboard extraction and reconciliation engine.

This file gives a shallow embedding, in Lean 4, of the algorithmic core of the
repository (mineral-taxonomy reconciliation, composite-mineral splitting,
multi-source voting and auto-fill gating, and the percentage/range guards of
the document extractors), together with theorems settling the specification
claims about those components.

Numeric values that the Python code holds as IEEE-754 floats are modelled as
exact rationals (`ℚ`); where a claim is sensitive to the difference this is
called out at the claim.  Calls into external libraries (regular-expression
search, `pdfplumber` table extraction) are modelled by passing their results in
as explicit parameters: the embedded functions receive the captured numeric
values and perform exactly the guarding, storing and arithmetic that the
Python source performs on them.
-/

namespace FixDup

/-! ### Embedding of `scripts/fix_mineral_duplicates.py`

A mineral-composition entry carries a component name and a percentage value
(`component_name`, `value_pct`).  The Python code reads `value_pct` with
`m.get('value_pct', 0) or 0`; on a numeric value this is the identity (a `0.0`
is mapped to `0`), so the entry value is modelled directly as a rational. -/

structure MEntry where
  name : String
  value : ℚ
  deriving DecidableEq

/-- `SAME_AS`: direct name mappings applied before grouping. -/
def sameAs (n : String) : String :=
  if n = "Anorthosite" then "Plagioclase"
  else if n = "Volcanic Glass" then "Glass"
  else if n = "Feldspar" then "Plagioclase"
  else n

/-- `ROCK_TYPES`: rock types excluded once real mineral data is present. -/
def rockTypes : List String := ["Basalt", "Norite"]

/-- `PARENT_CHILD`: known sub-types that should not overlap with a parent,
in the dictionary's insertion order. -/
def parentChild : List (String × List String) :=
  [("Plagioclase", ["Anorthite", "Labradorite", "Bytownite", "Albite"]),
   ("Pyroxene", ["Augite", "Clinopyroxene", "Orthopyroxene", "Bronzite", "Pigeonite"]),
   ("Olivine", ["Forsterite", "Fayalite"]),
   ("Feldspar", ["Plagioclase", "K-feldspar"])]

/-- Name normalization of one entry (the `if name in SAME_AS` branch of the
grouping loop, which copies the entry and rewrites its name). -/
def normEntry (m : MEntry) : MEntry := { m with name := sameAs m.name }

/-- Sum of the `value_pct` fields of a list of entries. -/
def sumVal : List MEntry → ℚ
  | [] => 0
  | m :: rest => m.value + sumVal rest

/-- `real_total`: sum over entries whose (original) name is not a rock type. -/
def realTotal : List MEntry → ℚ
  | [] => 0
  | m :: rest => (if m.name ∈ rockTypes then 0 else m.value) + realTotal rest

/-- Append an entry to its group, creating the group at the end on first
occurrence of the name (`defaultdict(list)` insertion-order semantics). -/
def addToGroups : List (String × List MEntry) → MEntry → List (String × List MEntry)
  | [], e => [(e.name, [e])]
  | (k, es) :: rest, e =>
    if k = e.name then (k, es ++ [e]) :: rest
    else (k, es) :: addToGroups rest e

/-- `by_name`: group the (name-normalized) entries by component name. -/
def groupByName (l : List MEntry) : List (String × List MEntry) :=
  l.foldl (fun gs m => addToGroups gs (normEntry m)) []

/-- `get_best_value`: the entry with the highest value; Python's `max` keeps
the first maximal element on ties. -/
def getBestValue : List MEntry → Option MEntry
  | [] => none
  | e :: es => some (es.foldl (fun b x => if b.value < x.value then x else b) e)

/-- `by_name[n]` lookup (the group of entries recorded under name `n`). -/
def groupOf (byn : List (String × List MEntry)) (n : String) : List MEntry :=
  match byn.find? (fun g => decide (g.1 = n)) with
  | some g => g.2
  | none => []

/-- Build the cleaned list: one best entry per group whose name is not marked
for removal, in group order. -/
def cleanedOf (byn : List (String × List MEntry)) (rem : List String) : List MEntry :=
  match byn with
  | [] => []
  | (k, es) :: rest =>
    if k ∈ rem then cleanedOf rest rem
    else
      match getBestValue es with
      | some b => b :: cleanedOf rest rem
      | none => cleanedOf rest rem

/-- One step of the parent/child overlap loop: if the parent and at least one
child are present, mark either the children (parent value more than 1.5 times
the children's sum) or the parent for removal. -/
def pcStep (byn : List (String × List MEntry)) (names : List String)
    (rem : List String) (rule : String × List String) : List String :=
  if rule.1 ∈ names then
    let present := rule.2.filter (fun c => decide (c ∈ names))
    if present = [] then rem
    else
      let pv := sumVal (groupOf byn rule.1)
      let cv := (present.map (fun c => sumVal (groupOf byn c))).sum
      if pv > cv * (3/2) then rem ++ present else rem ++ [rule.1]
  else rem

/-- Stable descending sort by value (`cleaned.sort(key=lambda m: -value)`). -/
def sortDesc (l : List MEntry) : List MEntry :=
  List.insertionSort (fun a b => b.value ≤ a.value) l

/-- The final greedy pass: keep an entry while the running total stays at or
below 105, or while the running total is still under 50. -/
def greedyTake : List MEntry → ℚ → List MEntry
  | [], _ => []
  | m :: rest, running =>
    if running + m.value ≤ 105 ∨ running < 50 then
      m :: greedyTake rest (running + m.value)
    else greedyTake rest running

/-- `fix_minerals`: the Taxonomy Reconciler of `fix_mineral_duplicates.py`. -/
def fixMinerals (l : List MEntry) : List MEntry :=
  if l = [] then l
  else
    let total := sumVal l
    let byn := groupByName l
    let names := byn.map Prod.fst
    let rem0 : List String := if realTotal l > 30 then rockTypes else []
    if total ≤ 110 then cleanedOf byn rem0
    else
      let rem := parentChild.foldl (pcStep byn names) rem0
      let cl := cleanedOf byn rem
      if sumVal cl > 115 then greedyTake (sortDesc cl) 0 else cl

end FixDup

namespace PopGroups

/-! ### Embedding of `scripts/populate_mineral_groups.py`

`parse_composite_mineral` splits a composite raw name on `+` and distributes
the reported value over the NASA mineral groups of the recognized parts.
String primitives (`str.lower`, `str.split('+')`, `str.strip`, substring
containment) are modelled structurally over `List Char` so that concrete runs
are computable by the kernel. -/

/-- `MINERAL_TO_GROUP`: detailed mineral name to NASA group, in the Python
dictionary's insertion order. -/
def mineralToGroup : List (String × String) :=
  [("Plagioclase", "Plagioclase Feldspar"),
   ("Anorthite", "Plagioclase Feldspar"),
   ("Labradorite", "Plagioclase Feldspar"),
   ("Bytownite", "Plagioclase Feldspar"),
   ("Albite", "Plagioclase Feldspar"),
   ("Anorthosite", "Plagioclase Feldspar"),
   ("Feldspar", "Plagioclase Feldspar"),
   ("Pyroxene", "Pyroxene"),
   ("Augite", "Pyroxene"),
   ("Clinopyroxene", "Pyroxene"),
   ("Orthopyroxene", "Pyroxene"),
   ("Bronzite", "Pyroxene"),
   ("Pigeonite", "Pyroxene"),
   ("Diopside", "Pyroxene"),
   ("Enstatite", "Pyroxene"),
   ("Hypersthene", "Pyroxene"),
   ("Olivine", "Olivine"),
   ("Forsterite", "Olivine"),
   ("Fayalite", "Olivine"),
   ("Ilmenite", "Ilmenite"),
   ("Glass", "Glass"),
   ("Volcanic Glass", "Glass"),
   ("Agglutinate", "Glass"),
   ("Basaltic Ash", "Glass")]

/-- Python `str.split('+')`: split a character list at every `+`. -/
def splitPlus : List Char → List (List Char)
  | [] => [[]]
  | c :: rest =>
    match splitPlus rest with
    | [] => if c = '+' then [[], []] else [[c]]
    | p :: ps => if c = '+' then [] :: p :: ps else (c :: p) :: ps

/-- Python `str.strip()` (whitespace characters, ASCII fragment). -/
def isSpaceChar (c : Char) : Bool :=
  c = ' ' || c = '\t' || c = '\n' || c = '\r'

/-- Strip leading and trailing whitespace. -/
def stripChars (l : List Char) : List Char :=
  ((l.dropWhile isSpaceChar).reverse.dropWhile isSpaceChar).reverse

/-- Lowercase a name the way `str.lower` does on the ASCII names involved. -/
def lowerChars (l : List Char) : List Char := l.map Char.toLower

/-- Does `l` start with `pat`? -/
def startsWith : List Char → List Char → Bool
  | [], _ => true
  | _ :: _, [] => false
  | p :: ps, c :: cs => p = c && startsWith ps cs

/-- Substring containment (`pat in l` on Python strings). -/
def infixOfB : List Char → List Char → Bool
  | pat, [] => pat.isEmpty
  | pat, c :: rest => startsWith pat (c :: rest) || infixOfB pat rest

/-- The matching loop body: the first table entry whose lowered key is
contained in the part, or contains the part, yields its group (`break`). -/
def findGroup (part : List Char) : Option String :=
  mineralToGroup.findSome? fun mg =>
    if infixOfB (lowerChars mg.1.data) part || infixOfB part (lowerChars mg.1.data) then
      some mg.2
    else none

/-- `result[group] += share` with `result[group] = 0` on first touch
(dictionary insertion-order semantics). -/
def addVal : List (String × ℚ) → String → ℚ → List (String × ℚ)
  | [], k, v => [(k, v)]
  | (k', v') :: rest, k, v =>
    if k' = k then (k', v' + v) :: rest else (k', v') :: addVal rest k v

/-- The `+`-separated, stripped parts of the lowered name. -/
def compositeParts (name : String) : List (List Char) :=
  (splitPlus (lowerChars name.data)).map stripChars

/-- `parse_composite_mineral`: returns the per-group split of `value`; each
part contributes `value / len(parts)` to the group of the first matching
table entry, and a name without `+` yields the empty mapping. -/
def parseCompositeMineral (name : String) (value : ℚ) : List (String × ℚ) :=
  if '+' ∈ lowerChars name.data then
    (compositeParts name).foldl
      (fun res part =>
        match findGroup part with
        | some g => addVal res g (value / ((compositeParts name).length : ℚ))
        | none => res)
      []
  else []

/-- Number of parts whose token is recognized by the matching loop. -/
def recognizedCount (name : String) : ℕ :=
  ((compositeParts name).filter (fun p => (findGroup p).isSome)).length

/-- Total mass distributed into the result mapping. -/
def sumSplit : List (String × ℚ) → ℚ
  | [] => 0
  | (_, v) :: rest => v + sumSplit rest

end PopGroups

namespace Valid

/-! ### Embedding of `scripts/validation.py`

`DataValidator.validate_field` and the auto-fill / review-queue getters.
Candidate values are `Option String` (a `None` from an extraction source);
confidences are exact rationals.  The thresholds are those of
`scripts/config.py`. -/

/-- `MIN_SOURCES_REQUIRED` (config.py). -/
def minSourcesRequired : ℕ := 2

/-- `CONFIDENCE_THRESHOLD` (config.py); `0.8` as an exact rational. -/
def confThreshold : ℚ := 8/10

/-- The non-null filter: drop `None`, `""`, `"null"` and `"None"`. -/
def filteredVals : List (Option String) → List String
  | [] => []
  | none :: rest => filteredVals rest
  | some s :: rest =>
    if s = "" ∨ s = "null" ∨ s = "None" then filteredVals rest
    else s :: filteredVals rest

/-- Distinct values in first-occurrence order (`Counter` key order). -/
def keysOf (l : List String) : List String :=
  l.foldl (fun acc s => if s ∈ acc then acc else acc ++ [s]) []

/-- Number of occurrences of `s` in `l`. -/
def countOf (l : List String) (s : String) : ℕ :=
  (l.filter (fun x => decide (x = s))).length

/-- Left-to-right maximum of counts, keeping the earlier key on ties. -/
def pickMax (l : List String) : String → List String → String
  | k, [] => k
  | k, x :: ks => if countOf l k < countOf l x then pickMax l x ks else pickMax l k ks

/-- `Counter(...).most_common(1)[0][0]`: the first key, in first-occurrence
order, with maximal count (Python's stable sort keeps the earliest on ties). -/
def mostCommon (l : List String) : String :=
  match keysOf l with
  | [] => ""
  | k :: ks => pickMax l k ks

/-- The validation result returned by `validate_field`. -/
structure VResult where
  value : Option String
  confidence : ℚ
  sourcesAgree : Bool
  numSources : ℕ
  allValues : Option (List String)
  deriving DecidableEq

/-- `validate_field`: majority voting over the non-null candidates. -/
def validateField (values : List (Option String)) : VResult :=
  match filteredVals values with
  | [] => ⟨none, 0, false, 0, none⟩
  | _ :: _ =>
    let nn := filteredVals values
    let total : ℕ := nn.length
    let cnt : ℕ := countOf nn (mostCommon nn)
    let ratio : ℚ := (cnt : ℚ) / (total : ℚ)
    let conf : ℚ := if minSourcesRequired ≤ total then min 1 (ratio * (12/10)) else ratio
    ⟨some (mostCommon nn), conf, decide (ratio > 1/2), total,
     if 1 < (keysOf nn).length then some (keysOf nn) else none⟩

/-- `get_auto_fillable_fields`: fields whose confidence and source count clear
the thresholds and whose value is non-null. -/
def getAutoFillable : List (String × VResult) → List (String × String)
  | [] => []
  | (f, r) :: rest =>
    match r.value with
    | some v =>
      if confThreshold ≤ r.confidence ∧ minSourcesRequired ≤ r.numSources then
        (f, v) :: getAutoFillable rest
      else getAutoFillable rest
    | none => getAutoFillable rest

/-- `get_review_required_fields`: fields with low confidence, too few sources,
or disagreeing sources. -/
def getReviewRequired : List (String × VResult) → List (String × VResult)
  | [] => []
  | (f, r) :: rest =>
    if r.confidence < confThreshold ∨ r.numSources < minSourcesRequired ∨ r.sourcesAgree = false
    then (f, r) :: getReviewRequired rest
    else getReviewRequired rest

end Valid

namespace Extract

/-! ### Embeddings from `scripts/extractors/`

The extractors call external libraries (`re`, `pdfplumber`) whose outputs are
modelled as explicit inputs: a parse function receives the numeric values the
regular-expression layer captured (as exact rationals; the patterns
`\d+\.?\d*` always parse, so `float()` never raises on them) and performs the
guarding and dictionary updates of the Python source.  The entity locator is
modelled down to characters, since its claim is about the matching itself. -/

/-- `KNOWN_SIMULANTS` (multiformat_extractor.py). -/
def knownSimulants : List String :=
  ["JSC-1", "JSC-1A", "JSC-1AF", "JSC-2A",
   "LHS-1", "LHS-1D", "LHS-1E", "LHS-2", "LHS-2E",
   "LMS-1", "LMS-1D", "LMS-1E", "LMS-2",
   "LSP-1", "LSP-2",
   "TLH-0", "TLM-0",
   "EAC-1", "EAC-1A",
   "FJS-1", "FJS-2", "FJS-3",
   "MLS-1", "MLS-2",
   "NU-LHT-1M", "NU-LHT-2M", "NU-LHT-3M",
   "DNA-1", "DNA-1A",
   "GRC-1", "GRC-3",
   "BP-1",
   "Chenobi",
   "OPRL2N", "OPRH2N", "OPRH3N",
   "CAS-1",
   "CLRS-1", "CLRS-2",
   "CLDS-1",
   "NAO-1", "NAO-2",
   "BHLD20",
   "CUG-1A", "CUG-1B",
   "CUMT-1",
   "AGK-2010",
   "ALRS-1",
   "CSM-CL",
   "KOHLS-1",
   "OB-1",
   "UoM-B", "UoM-W",
   "NEU-1",
   "TJ-1", "TJ-2",
   "IGG-01",
   "KLS-1",
   "ISAC-1", "LSS-ISAC-1",
   "KIGAM",
   "JLRS-1"]

/-- Word characters for the regex `\b` boundary (the ASCII fragment of `\w`,
which covers every catalog name and the texts at issue). -/
def isWordChar (c : Char) : Bool := c.isAlphanum || c = '_'

/-- Uppercasing, as `str.upper()` acts on the ASCII texts involved. -/
def upperChars (l : List Char) : List Char := l.map Char.toUpper

/-- Whether position `i` of `text` holds a word character. -/
def wordAt (text : List Char) (i : ℕ) : Bool :=
  match text.get? i with
  | some c => isWordChar c
  | none => false

/-- A `\b` word boundary immediately before position `i` (positions outside
the text count as non-word). -/
def boundaryAt (text : List Char) (i : ℕ) : Bool :=
  (if i = 0 then false else wordAt text (i - 1)) != wordAt text i

/-- The literal pattern `pat` occurs at position `i` of `text`. -/
def occursAt (pat text : List Char) (i : ℕ) : Prop :=
  (text.drop i).take pat.length = pat

instance (pat text : List Char) (i : ℕ) : Decidable (occursAt pat text i) := by
  unfold occursAt
  infer_instance

/-- The compiled pattern `\b<pat>\b` matches somewhere in `text`. -/
def boundaryMatch (pat text : List Char) : Bool :=
  (List.range (text.length + 1)).any fun i =>
    decide (occursAt pat text i) && boundaryAt text i && boundaryAt text (i + pat.length)

/-- `_find_mentioned_simulants`: catalog names whose uppercased
word-boundary pattern matches the uppercased text, in catalog order. -/
def findMentionedSimulants (text : String) : List String :=
  knownSimulants.filter fun s => boundaryMatch (upperChars s.data) (upperChars text.data)

/-- The last character exists and is a word character (true of every
uppercased catalog name). -/
def lastIsWord (l : List Char) : Bool :=
  match l.getLast? with
  | some c => isWordChar c
  | none => false

/-! #### Range-guarded stores (Property Extractor)

`_parse_oxide_text` / `_parse_mineral_text` (multiformat_extractor.py): per
category, if the category is not yet present, every pattern is searched; the
first in-range match of a pattern is stored (`break` leaves later patterns to
run, so a later pattern's first in-range match overwrites within the same
call).  The per-pattern `re.findall` results are the `caps` input. -/

/-- First captured value lying in `[0, 100]` (the inner `for match` loop). -/
def firstInRange : List ℚ → Option ℚ
  | [] => none
  | v :: rest => if 0 ≤ v ∧ v ≤ 100 then some v else firstInRange rest

/-- Value stored for one category by `_parse_oxide_text`: the last pattern
with an in-range match wins within the single call. -/
def textValue (caps : List (List ℚ)) : Option ℚ :=
  caps.foldl
    (fun acc vals =>
      match firstInRange vals with
      | some v => some v
      | none => acc)
    none

/-- Dictionary keys. -/
def keys {α : Type} (m : List (String × α)) : List String := m.map Prod.fst

/-- Dictionary lookup. -/
def lookupVal {α : Type} : List (String × α) → String → Option α
  | [], _ => none
  | p :: rest, k => if p.1 = k then some p.2 else lookupVal rest k

/-- Dictionary assignment `m[k] = v` (overwrite or append). -/
def setVal : List (String × ℚ) → String → ℚ → List (String × ℚ)
  | [], k, v => [(k, v)]
  | (k', v') :: rest, k, v =>
    if k' = k then (k, v) :: rest else (k', v') :: setVal rest k v

/-- `_parse_oxide_text` / `_parse_mineral_text`: `tbl` pairs each category
(in pattern-table order) with its per-pattern capture lists. -/
def parseCompText (tbl : List (String × List (List ℚ))) (m : List (String × ℚ)) :
    List (String × ℚ) :=
  tbl.foldl
    (fun m ox =>
      if ox.1 ∈ keys m then m
      else
        match textValue ox.2 with
        | some v => m ++ [(ox.1, v)]
        | none => m)
    m

/-- `_parse_header_value_table` (specsheet_extractor.py): for each matched
column, the parsed value cell (`None` when the cell is empty or unparsable)
is stored when in `[0, 100]` — without checking whether the component is
already present. -/
def parseHeaderValueTable (cols : List (String × Option ℚ)) (m : List (String × ℚ)) :
    List (String × ℚ) :=
  cols.foldl
    (fun m col =>
      match col.2 with
      | some v => if 0 ≤ v ∧ v ≤ 100 then setVal m col.1 v else m
      | none => m)
    m

/-- `_match_mineral_groups_to_values` / `_match_oxide_headers_to_values`
(specsheet_extractor.py): position-aligned `(category, value)` pairs are
stored when in `[0, 100]`, overwriting unconditionally. -/
def matchHeadersToValues (pairs : List (String × ℚ)) (m : List (String × ℚ)) :
    List (String × ℚ) :=
  pairs.foldl
    (fun m p => if 0 ≤ p.2 ∧ p.2 ≤ 100 then setVal m p.1 p.2 else m)
    m

/-! #### Layered chemical-composition extraction (C7) -/

/-- `_parse_oxide_from_table` (multiformat_extractor.py): per matched cell,
skip the oxide if already present, otherwise store the aligned value when in
range. -/
def parseOxideFromTable (cands : List (String × Option ℚ)) (m : List (String × ℚ)) :
    List (String × ℚ) :=
  cands.foldl
    (fun m c =>
      if c.1 ∈ keys m then m
      else
        match c.2 with
        | some v => if 0 ≤ v ∧ v ≤ 100 then m ++ [(c.1, v)] else m
        | none => m)
    m

/-- One `(line, oxide)` step of `_parse_oxide_block` (multiformat): the oxide
is skipped when already present; otherwise each pattern's match may store
(overwriting within the same step). -/
def blockStep (m : List (String × ℚ)) (ox : String) (pats : List (Option ℚ)) :
    List (String × ℚ) :=
  if ox ∈ keys m then m
  else
    pats.foldl
      (fun m v? =>
        match v? with
        | some v => if 0 ≤ v ∧ v ≤ 100 then setVal m ox v else m
        | none => m)
      m

/-- `_parse_oxide_block` (multiformat). -/
def parseOxideBlock (cands : List (String × List (Option ℚ))) (m : List (String × ℚ)) :
    List (String × ℚ) :=
  cands.foldl (fun m c => blockStep m c.1 c.2) m

/-- `_extract_chemical_composition` (multiformat_extractor.py): inline text
parse, then tables, then formatted blocks, the later layers gated on fewer
than 5 oxides found so far. -/
def mfExtractChem (textTbl : List (String × List (List ℚ)))
    (tableCands : List (String × Option ℚ))
    (blockCands : List (String × List (Option ℚ)))
    (m0 : List (String × ℚ)) : List (String × ℚ) :=
  let m1 := parseCompText textTbl m0
  let m2 := if m1.length < 5 then parseOxideFromTable tableCands m1 else m1
  if m2.length < 5 then parseOxideBlock blockCands m2 else m2

/-- The inline layer of `_extract_chemical_composition`
(specsheet_extractor.py, method 2): per oxide, skip when present, else store
the first capture when in range. -/
def ssInlineOxides (caps : List (String × Option ℚ)) (m : List (String × ℚ)) :
    List (String × ℚ) :=
  caps.foldl
    (fun m c =>
      if c.1 ∈ keys m then m
      else
        match c.2 with
        | some v => if 0 ≤ v ∧ v ≤ 100 then m ++ [(c.1, v)] else m
        | none => m)
    m

/-- `_extract_chemical_composition` (specsheet_extractor.py): multiline table
parse (position-aligned assignments, no membership guard), then the inline
layer, then pdfplumber tables via `_parse_header_value_table` (no membership
guard), the later layers gated on fewer than 5 oxides found so far. -/
def ssExtractChem (multiline : List (String × ℚ))
    (inline : List (String × Option ℚ))
    (tableCols : List (String × Option ℚ))
    (m0 : List (String × ℚ)) : List (String × ℚ) :=
  let m1 := matchHeadersToValues multiline m0
  let m2 := if m1.length < 5 then ssInlineOxides inline m1 else m1
  if m2.length < 5 then parseHeaderValueTable tableCols m2 else m2

/-! #### Confidence scorers (C8) -/

/-- Python truthiness of an optional float (`if data.field:`). -/
def truthy : Option ℚ → Bool
  | none => false
  | some v => decide (v ≠ 0)

/-- Sum of a composition dictionary's values. -/
def dictSum : List (String × ℚ) → ℚ
  | [] => 0
  | (_, v) :: rest => v + dictSum rest

/-- The fields of a spec-sheet extraction record that `_calculate_confidence`
(specsheet_extractor.py) reads. -/
structure SSRecord where
  name : String
  simType : String
  chemicalComposition : List (String × ℚ)
  mineralComposition : List (String × ℚ)
  densityMean : Option ℚ
  particleSizeMedian : Option ℚ
  nasaFomScore : Option ℚ
  deriving DecidableEq

/-- `_calculate_confidence` (specsheet_extractor.py). -/
def ssCalcConfidence (d : SSRecord) : ℚ :=
  let s0 : ℚ := 0
  let s1 := if d.name ≠ "" ∧ 2 < d.name.length then s0 + 20 else s0
  let s2 := if d.simType ≠ "" then s1 + 10 else s1
  let s3 :=
    if 5 ≤ d.chemicalComposition.length then s2 + 25
    else if 3 ≤ d.chemicalComposition.length then s2 + 15
    else if 1 ≤ d.chemicalComposition.length then s2 + 5
    else s2
  let s4 :=
    if 5 ≤ d.mineralComposition.length then s3 + 20
    else if 3 ≤ d.mineralComposition.length then s3 + 12
    else if 1 ≤ d.mineralComposition.length then s3 + 5
    else s3
  let s5 := if truthy d.densityMean then s4 + 5 else s4
  let s6 := if truthy d.particleSizeMedian then s5 + 5 else s5
  let s7 := if truthy d.nasaFomScore then s6 + 10 else s6
  let s8 :=
    if 90 ≤ dictSum d.chemicalComposition ∧ dictSum d.chemicalComposition ≤ 105
    then s7 + 5 else s7
  min s8 100

/-- The fields of a multi-format extraction record that
`_calculate_confidence` (multiformat_extractor.py) reads. -/
structure MFRecord where
  name : String
  simType : String
  chemicalComposition : List (String × ℚ)
  mineralComposition : List (String × ℚ)
  bulkDensity : Option ℚ
  particleSizeMedian : Option ℚ
  nasaFomScore : Option ℚ
  cohesionKpa : Option ℚ
  deriving DecidableEq

/-- `_calculate_confidence` (multiformat_extractor.py). -/
def mfCalcConfidence (d : MFRecord) : ℚ :=
  let s0 : ℚ := 0
  let s1 := if d.name ≠ "" then s0 + 20 else s0
  let s2 := if d.simType ≠ "" then s1 + 10 else s1
  let s3 :=
    if 5 ≤ d.chemicalComposition.length then s2 + 25
    else if 3 ≤ d.chemicalComposition.length then s2 + 15
    else if 1 ≤ d.chemicalComposition.length then s2 + 5
    else s2
  let s4 :=
    if 3 ≤ d.mineralComposition.length then s3 + 20
    else if 1 ≤ d.mineralComposition.length then s3 + 10
    else s3
  let s5 := if truthy d.bulkDensity then s4 + 5 else s4
  let s6 := if truthy d.particleSizeMedian then s5 + 5 else s5
  let s7 := if truthy d.nasaFomScore then s6 + 10 else s6
  let s8 := if truthy d.cohesionKpa then s7 + 5 else s7
  min s8 100

/-- The spec-sheet confidence score written, following the amended claim, as a
sum of independent bonuses: +20 for a resolved name (more than two
characters); +10 for a known type; 5/15/25 for at least 1/3/5 oxides;
5/12/20 for at least 1/3/5 minerals; +5 each for a (non-zero) mean density
and median particle size; +10 for a NASA FoM score; +5 when the chemical
total lies in 90-105; clamped to at most 100. -/
def ssConfidenceSpec (d : SSRecord) : ℚ :=
  min 100
    ((if 2 < d.name.length then (20:ℚ) else 0) +
     (if d.simType ≠ "" then 10 else 0) +
     (if 5 ≤ d.chemicalComposition.length then 25
      else if 3 ≤ d.chemicalComposition.length then 15
      else if 1 ≤ d.chemicalComposition.length then 5 else 0) +
     (if 5 ≤ d.mineralComposition.length then 20
      else if 3 ≤ d.mineralComposition.length then 12
      else if 1 ≤ d.mineralComposition.length then 5 else 0) +
     (if truthy d.densityMean then 5 else 0) +
     (if truthy d.particleSizeMedian then 5 else 0) +
     (if truthy d.nasaFomScore then 10 else 0) +
     (if 90 ≤ dictSum d.chemicalComposition ∧ dictSum d.chemicalComposition ≤ 105
      then 5 else 0))

/-- The multi-format confidence score written, following the amended claim, as
a sum of independent bonuses: +20 for a non-empty name; +10 for a known type;
5/15/25 for at least 1/3/5 oxides; 10/20 for at least 1/3 minerals; +5 each
for (non-zero) bulk density, median particle size and cohesion; +10 for a
NASA FoM score; no chemical-total bonus; clamped to at most 100. -/
def mfConfidenceSpec (d : MFRecord) : ℚ :=
  min 100
    ((if d.name ≠ "" then (20:ℚ) else 0) +
     (if d.simType ≠ "" then 10 else 0) +
     (if 5 ≤ d.chemicalComposition.length then 25
      else if 3 ≤ d.chemicalComposition.length then 15
      else if 1 ≤ d.chemicalComposition.length then 5 else 0) +
     (if 3 ≤ d.mineralComposition.length then 20
      else if 1 ≤ d.mineralComposition.length then 10 else 0) +
     (if truthy d.bulkDensity then 5 else 0) +
     (if truthy d.particleSizeMedian then 5 else 0) +
     (if truthy d.nasaFomScore then 10 else 0) +
     (if truthy d.cohesionKpa then 5 else 0))

/-! #### Physical-property extraction and range guards (C9) -/

/-- First pattern whose capture parses and lies in `[lo, hi]`; an out-of-range
capture falls through to the next pattern (multiformat_extractor.py). -/
def firstCapInRange (caps : List (Option ℚ)) (lo hi : ℚ) : Option ℚ :=
  match caps with
  | [] => none
  | none :: rest => firstCapInRange rest lo hi
  | some v :: rest => if lo ≤ v ∧ v ≤ hi then some v else firstCapInRange rest lo hi

/-- The regex captures feeding `_extract_physical_properties`
(multiformat_extractor.py): one optional parsed value per pattern. -/
structure MFPhysCaps where
  density : List (Option ℚ)
  sizeMedian : List (Option ℚ)
  cohesion : Option ℚ
  friction : List (Option ℚ)
  ph : Option ℚ
  spGravity : Option ℚ
  deriving DecidableEq

/-- The physical-property fields set by `_extract_physical_properties`
(multiformat_extractor.py). -/
structure MFPhys where
  bulkDensity : Option ℚ
  particleSizeMedian : Option ℚ
  cohesionKpa : Option ℚ
  frictionAngleDeg : Option ℚ
  phValue : Option ℚ
  specificGravity : Option ℚ
  deriving DecidableEq

/-- `_extract_physical_properties` (multiformat_extractor.py): density,
particle size, friction, pH and specific gravity are range-guarded; cohesion
is stored unguarded. -/
def mfExtractPhys (c : MFPhysCaps) : MFPhys where
  bulkDensity := firstCapInRange c.density (1/2) 5
  particleSizeMedian := firstCapInRange c.sizeMedian (1/10) 10000
  cohesionKpa := c.cohesion
  frictionAngleDeg := firstCapInRange c.friction 0 90
  phValue :=
    match c.ph with
    | some v => if 0 ≤ v ∧ v ≤ 14 then some v else none
    | none => none
  specificGravity :=
    match c.spGravity with
    | some v => if 1 ≤ v ∧ v ≤ 5 then some v else none
    | none => none

/-- The regex captures feeding `_extract_physical_properties`
(specsheet_extractor.py), density/friction/cohesion portion. -/
structure SSPhysCaps where
  densityMin : Option ℚ
  densityMax : Option ℚ
  densityMean : Option ℚ
  densityFallback : List (Option ℚ)
  friction : Option ℚ
  cohesion : Option ℚ
  deriving DecidableEq

/-- The corresponding fields of the spec-sheet record. -/
structure SSPhys where
  densityMin : Option ℚ
  densityMax : Option ℚ
  densityMean : Option ℚ
  frictionAngleDeg : Option ℚ
  cohesionKpa : Option ℚ
  deriving DecidableEq

/-- First successful capture (`for pattern: if match: set; break`). -/
def firstCap : List (Option ℚ) → Option ℚ
  | [] => none
  | none :: rest => firstCap rest
  | some v :: _ => some v

/-- `_extract_physical_properties` (specsheet_extractor.py): labeled density
patterns, then a generic fallback when the mean is absent; friction and
cohesion from single patterns.  No field is range-checked. -/
def ssExtractPhys (c : SSPhysCaps) : SSPhys where
  densityMin := c.densityMin
  densityMax := c.densityMax
  densityMean :=
    match c.densityMean with
    | some v => some v
    | none => firstCap c.densityFallback
  frictionAngleDeg := c.friction
  cohesionKpa := c.cohesion

end Extract

namespace Extract

theorem ex_known_nodup : knownSimulants.Nodup := by decide

theorem ex_known_lastWord :
    ∀ s ∈ knownSimulants, lastIsWord (upperChars s.data) = true := by decide

theorem ex_occursAt_get (pat text : List Char) (i j : ℕ) (h : occursAt pat text i)
    (hj : j < pat.length) : text.get? (i + j) = pat.get? j := by
  unfold occursAt at h
  have h1 : ((text.drop i).take pat.length).get? j = pat.get? j := by rw [h]
  rw [List.get?_take hj, List.get?_drop] at h1
  exact h1

theorem ex_occursAt_lt (pat text : List Char) (i : ℕ) (h : occursAt pat text i)
    (hne : pat ≠ []) : i < text.length := by
  unfold occursAt at h
  have h1 := congrArg List.length h
  rw [List.length_take, List.length_drop] at h1
  have h2 : 0 < pat.length := List.length_pos.mpr hne
  omega

theorem ex_prefix_only_not_matched (pat text : List Char)
    (hlast : lastIsWord pat = true)
    (hocc : ∀ i, occursAt pat text i → wordAt text (i + pat.length) = true) :
    boundaryMatch pat text = false := by
  by_contra hb
  rw [Bool.not_eq_false, boundaryMatch, List.any_eq_true] at hb
  obtain ⟨i, _, hi⟩ := hb
  rw [Bool.and_eq_true, Bool.and_eq_true] at hi
  obtain ⟨⟨hoc, _⟩, hend⟩ := hi
  have hoc' : occursAt pat text i := of_decide_eq_true hoc
  have hne : pat ≠ [] := by
    intro he
    rw [he] at hlast
    simp [lastIsWord] at hlast
  obtain ⟨lc, hlc⟩ : ∃ lc, pat.getLast? = some lc := by
    cases hp : pat.getLast? with
    | none => exact absurd (List.getLast?_eq_none_iff.mp hp) hne
    | some c => exact ⟨c, rfl⟩
  have hlw : isWordChar lc = true := by
    rw [lastIsWord, hlc] at hlast
    exact hlast
  have hlen : 0 < pat.length := List.length_pos.mpr hne
  have hgl : pat.get? (pat.length - 1) = some lc := by
    rw [List.getLast?_eq_get?] at hlc
    exact hlc
  have htl : text.get? (i + (pat.length - 1)) = some lc := by
    rw [ex_occursAt_get pat text i _ hoc' (by omega)]
    exact hgl
  have hw1 : wordAt text (i + pat.length - 1) = true := by
    have he : i + pat.length - 1 = i + (pat.length - 1) := by omega
    rw [wordAt, he, htl]
    exact hlw
  have hw2 : wordAt text (i + pat.length) = true := hocc i hoc'
  rw [boundaryAt, if_neg (by omega : ¬ i + pat.length = 0), hw1, hw2] at hend
  simp at hend

/-- C10: the Entity Locator reports each catalog name at most once, membership
is exactly case-insensitive word-boundary matching, a name every occurrence of
which is immediately followed by a word character (a proper prefix of a longer
alphanumeric token) is not reported, and in particular a text containing only
`JSC-1A` does not yield `JSC-1`, nor `LHS-1D` yield `LHS-1`. -/
theorem C10_find_mentioned_simulants :
    (∀ text : String, (findMentionedSimulants text).Nodup) ∧
    (∀ text s, s ∈ findMentionedSimulants text ↔
      s ∈ knownSimulants ∧
        boundaryMatch (upperChars s.data) (upperChars text.data) = true) ∧
    (∀ text s, s ∈ knownSimulants →
      (∀ i < (upperChars text.data).length,
        occursAt (upperChars s.data) (upperChars text.data) i →
          wordAt (upperChars text.data) (i + (upperChars s.data).length) = true) →
      s ∉ findMentionedSimulants text) ∧
    "JSC-1" ∉ findMentionedSimulants "Tests were run on JSC-1A simulant" ∧
    "JSC-1A" ∈ findMentionedSimulants "Tests were run on JSC-1A simulant" ∧
    "LHS-1" ∉ findMentionedSimulants "LHS-1D" := by
  refine ⟨fun text => ex_known_nodup.filter _, fun text s => List.mem_filter, ?_,
    by decide, by decide, by decide⟩
  intro text s hs hocc hmem
  have hb : boundaryMatch (upperChars s.data) (upperChars text.data) = true :=
    (List.mem_filter.mp hmem).2
  have hne : upperChars s.data ≠ [] := by
    intro he
    have := ex_known_lastWord s hs
    rw [he] at this
    simp [lastIsWord] at this
  have hocc' : ∀ i, occursAt (upperChars s.data) (upperChars text.data) i →
      wordAt (upperChars text.data) (i + (upperChars s.data).length) = true := by
    intro i hoc
    exact hocc i (ex_occursAt_lt _ _ i hoc hne) hoc
  have := ex_prefix_only_not_matched _ _ (ex_known_lastWord s hs) hocc'
  rw [this] at hb
  exact Bool.false_ne_true hb

/-- Witness for C10: the general conjuncts applied at the concrete text
`Results for the LHS-1D regolith simulant`. -/
theorem C10_witness :
    ("LHS-1" ∉ findMentionedSimulants "Results for the LHS-1D regolith simulant") ∧
    (findMentionedSimulants "Results for the LHS-1D regolith simulant").Nodup := by
  refine ⟨C10_find_mentioned_simulants.2.2.1 _ _ (by decide) (by decide),
    C10_find_mentioned_simulants.1 _⟩

end Extract

namespace Extract

theorem ex_firstInRange_range (vals : List ℚ) (v : ℚ) (h : firstInRange vals = some v) :
    0 ≤ v ∧ v ≤ 100 := by
  induction vals with
  | nil => simp [firstInRange] at h
  | cons w rest ih =>
    rw [firstInRange] at h
    split at h
    · cases h
      assumption
    · exact ih h

theorem ex_firstInRange_none (vals : List ℚ)
    (h : ∀ v ∈ vals, ¬ (0 ≤ v ∧ v ≤ 100)) : firstInRange vals = none := by
  induction vals with
  | nil => rfl
  | cons w rest ih =>
    rw [firstInRange, if_neg (h w (by simp))]
    exact ih fun v hv => h v (by simp [hv])

theorem ex_textValue_go_range (caps : List (List ℚ)) (acc : Option ℚ)
    (hacc : ∀ w, acc = some w → 0 ≤ w ∧ w ≤ 100) (v : ℚ)
    (h : caps.foldl (fun acc vals =>
      match firstInRange vals with
      | some v => some v
      | none => acc) acc = some v) : 0 ≤ v ∧ v ≤ 100 := by
  induction caps generalizing acc with
  | nil => exact hacc v h
  | cons vals rest ih =>
    rw [List.foldl_cons] at h
    refine ih _ ?_ h
    intro w hw
    revert hw
    split
    · rename_i u hu
      intro hw
      cases hw
      exact ex_firstInRange_range vals _ hu
    · exact hacc w

theorem ex_textValue_range (caps : List (List ℚ)) (v : ℚ) (h : textValue caps = some v) :
    0 ≤ v ∧ v ≤ 100 :=
  ex_textValue_go_range caps none (by simp) v h

theorem ex_textValue_none (caps : List (List ℚ))
    (h : ∀ vals ∈ caps, ∀ v ∈ vals, ¬ (0 ≤ v ∧ v ≤ 100)) : textValue caps = none := by
  unfold textValue
  induction caps with
  | nil => rfl
  | cons vals rest ih =>
    rw [List.foldl_cons, ex_firstInRange_none vals (h vals (by simp))]
    exact ih fun vs hvs v hv => h vs (by simp [hvs]) v hv

end Extract

namespace Extract

theorem ex_setVal_mem (m : List (String × ℚ)) (k0 : String) (v0 : ℚ) (k : String) (v : ℚ)
    (h : (k, v) ∈ setVal m k0 v0) : (k, v) ∈ m ∨ (k = k0 ∧ v = v0) := by
  induction m with
  | nil =>
    simp [setVal] at h
    exact Or.inr ⟨h.1, h.2⟩
  | cons p rest ih =>
    obtain ⟨k', v'⟩ := p
    rw [setVal] at h
    split at h
    · rcases List.mem_cons.mp h with h1 | h1
      · cases h1
        exact Or.inr ⟨rfl, rfl⟩
      · exact Or.inl (List.mem_cons_of_mem _ h1)
    · rcases List.mem_cons.mp h with h1 | h1
      · exact Or.inl (by rw [h1]; exact List.mem_cons_self _ _)
      · rcases ih h1 with h2 | h2
        · exact Or.inl (List.mem_cons_of_mem _ h2)
        · exact Or.inr h2

theorem ex_setVal_keys (m : List (String × ℚ)) (k0 : String) (v0 : ℚ) (k : String)
    (h : k ∈ keys (setVal m k0 v0)) : k ∈ keys m ∨ k = k0 := by
  induction m with
  | nil =>
    simp [setVal, keys] at h
    exact Or.inr h
  | cons p rest ih =>
    obtain ⟨k', v'⟩ := p
    rw [setVal] at h
    split at h
    · rename_i he
      rcases List.mem_cons.mp h with h1 | h1
      · exact Or.inr h1
      · exact Or.inl (List.mem_cons_of_mem _ h1)
    · rcases List.mem_cons.mp h with h1 | h1
      · exact Or.inl (by rw [h1]; exact List.mem_cons_self _ _)
      · rcases ih h1 with h2 | h2
        · exact Or.inl (List.mem_cons_of_mem _ h2)
        · exact Or.inr h2

theorem ex_parseCompText_mem (tbl : List (String × List (List ℚ)))
    (m : List (String × ℚ)) (k : String) (v : ℚ)
    (h : (k, v) ∈ parseCompText tbl m) : (k, v) ∈ m ∨ (0 ≤ v ∧ v ≤ 100) := by
  unfold parseCompText at h
  induction tbl generalizing m with
  | nil => exact Or.inl h
  | cons ox rest ih =>
    rw [List.foldl_cons] at h
    rcases ih _ h with h1 | h1
    · revert h1
      split
      · exact fun h1 => Or.inl h1
      · split
        · rename_i u hu
          intro h1
          rcases List.mem_append.mp h1 with h2 | h2
          · exact Or.inl h2
          · simp at h2
            exact Or.inr (h2.2 ▸ ex_textValue_range _ _ hu)
        · exact fun h1 => Or.inl h1
    · exact Or.inr h1

theorem ex_parseCompText_keys (tbl : List (String × List (List ℚ)))
    (m : List (String × ℚ)) (k : String)
    (h : k ∈ keys (parseCompText tbl m)) :
    k ∈ keys m ∨ ∃ e ∈ tbl, e.1 = k ∧ textValue e.2 ≠ none := by
  unfold parseCompText at h
  induction tbl generalizing m with
  | nil => exact Or.inl h
  | cons ox rest ih =>
    rw [List.foldl_cons] at h
    rcases ih _ h with h1 | h1
    · revert h1
      split
      · exact fun h1 => Or.inl h1
      · split
        · rename_i u hu
          intro h1
          rw [keys, List.map_append] at h1
          rcases List.mem_append.mp h1 with h2 | h2
          · exact Or.inl h2
          · simp at h2
            exact Or.inr ⟨ox, by simp, h2.symm, by rw [hu]; simp⟩
        · exact fun h1 => Or.inl h1
    · obtain ⟨e, he, hek, hev⟩ := h1
      exact Or.inr ⟨e, by simp [he], hek, hev⟩

theorem ex_parseHVT_mem (cols : List (String × Option ℚ)) (m : List (String × ℚ))
    (k : String) (v : ℚ) (h : (k, v) ∈ parseHeaderValueTable cols m) :
    (k, v) ∈ m ∨ (0 ≤ v ∧ v ≤ 100) := by
  unfold parseHeaderValueTable at h
  induction cols generalizing m with
  | nil => exact Or.inl h
  | cons col rest ih =>
    rw [List.foldl_cons] at h
    rcases ih _ h with h1 | h1
    · revert h1
      split
      · rename_i u hu
        split
        · rename_i hr
          intro h1
          rcases ex_setVal_mem _ _ _ _ _ h1 with h2 | h2
          · exact Or.inl h2
          · exact Or.inr (h2.2 ▸ hr)
        · exact fun h1 => Or.inl h1
      · exact fun h1 => Or.inl h1
    · exact Or.inr h1

theorem ex_parseHVT_keys (cols : List (String × Option ℚ)) (m : List (String × ℚ))
    (k : String) (h : k ∈ keys (parseHeaderValueTable cols m)) :
    k ∈ keys m ∨ ∃ e ∈ cols, e.1 = k ∧ ∃ v, e.2 = some v ∧ 0 ≤ v ∧ v ≤ 100 := by
  unfold parseHeaderValueTable at h
  induction cols generalizing m with
  | nil => exact Or.inl h
  | cons col rest ih =>
    rw [List.foldl_cons] at h
    rcases ih _ h with h1 | h1
    · revert h1
      split
      · rename_i u hu
        split
        · rename_i hr
          intro h1
          rcases ex_setVal_keys _ _ _ _ h1 with h2 | h2
          · exact Or.inl h2
          · exact Or.inr ⟨col, by simp, h2 ▸ rfl, u, hu, hr⟩
        · exact fun h1 => Or.inl h1
      · exact fun h1 => Or.inl h1
    · obtain ⟨e, he, hek, hev⟩ := h1
      exact Or.inr ⟨e, by simp [he], hek, hev⟩

theorem ex_matchHTV_mem (pairs : List (String × ℚ)) (m : List (String × ℚ))
    (k : String) (v : ℚ) (h : (k, v) ∈ matchHeadersToValues pairs m) :
    (k, v) ∈ m ∨ (0 ≤ v ∧ v ≤ 100) := by
  unfold matchHeadersToValues at h
  induction pairs generalizing m with
  | nil => exact Or.inl h
  | cons p rest ih =>
    rw [List.foldl_cons] at h
    rcases ih _ h with h1 | h1
    · revert h1
      split
      · rename_i hr
        intro h1
        rcases ex_setVal_mem _ _ _ _ _ h1 with h2 | h2
        · exact Or.inl h2
        · exact Or.inr (h2.2 ▸ hr)
      · exact fun h1 => Or.inl h1
    · exact Or.inr h1

theorem ex_matchHTV_keys (pairs : List (String × ℚ)) (m : List (String × ℚ))
    (k : String) (h : k ∈ keys (matchHeadersToValues pairs m)) :
    k ∈ keys m ∨ ∃ e ∈ pairs, e.1 = k ∧ 0 ≤ e.2 ∧ e.2 ≤ 100 := by
  unfold matchHeadersToValues at h
  induction pairs generalizing m with
  | nil => exact Or.inl h
  | cons p rest ih =>
    rw [List.foldl_cons] at h
    rcases ih _ h with h1 | h1
    · revert h1
      split
      · rename_i hr
        intro h1
        rcases ex_setVal_keys _ _ _ _ h1 with h2 | h2
        · exact Or.inl h2
        · exact Or.inr ⟨p, by simp, h2 ▸ rfl, hr⟩
      · exact fun h1 => Or.inl h1
    · obtain ⟨e, he, hek, hev⟩ := h1
      exact Or.inr ⟨e, by simp [he], hek, hev⟩

end Extract

namespace Extract

/-- C3: every value the Property Extractor stores into the chemical, mineral
or mineral-group composition mappings lies in `[0, 100]` (assuming the mapping
held only in-range values before the call), and a category all of whose
captured matches are out of range is left absent, never stored or clamped.
The three embedded store sites cover the inline text parse
(`_parse_oxide_text` / `_parse_mineral_text`), the header/value table parse
(`_parse_header_value_table`) and the position-aligned header matching
(`_match_mineral_groups_to_values` / `_match_oxide_headers_to_values`). -/
theorem C3_range_guard :
    (∀ tbl m k v, (∀ p ∈ m, 0 ≤ p.2 ∧ p.2 ≤ 100) →
      (k, v) ∈ parseCompText tbl m → 0 ≤ v ∧ v ≤ 100) ∧
    (∀ cols m k v, (∀ p ∈ m, 0 ≤ p.2 ∧ p.2 ≤ 100) →
      (k, v) ∈ parseHeaderValueTable cols m → 0 ≤ v ∧ v ≤ 100) ∧
    (∀ pairs m k v, (∀ p ∈ m, 0 ≤ p.2 ∧ p.2 ≤ 100) →
      (k, v) ∈ matchHeadersToValues pairs m → 0 ≤ v ∧ v ≤ 100) ∧
    (∀ tbl m k, k ∉ keys m →
      (∀ e ∈ tbl, e.1 = k → ∀ vals ∈ e.2, ∀ v ∈ vals, ¬ (0 ≤ v ∧ v ≤ 100)) →
      k ∉ keys (parseCompText tbl m)) ∧
    (∀ cols m k, k ∉ keys m →
      (∀ e ∈ cols, e.1 = k → ∀ v, e.2 = some v → ¬ (0 ≤ v ∧ v ≤ 100)) →
      k ∉ keys (parseHeaderValueTable cols m)) ∧
    (∀ pairs m k, k ∉ keys m →
      (∀ e ∈ pairs, e.1 = k → ¬ (0 ≤ e.2 ∧ e.2 ≤ 100)) →
      k ∉ keys (matchHeadersToValues pairs m)) := by
  refine ⟨?_, ?_, ?_, ?_, ?_, ?_⟩
  · intro tbl m k v hm h
    rcases ex_parseCompText_mem tbl m k v h with h1 | h1
    · exact hm _ h1
    · exact h1
  · intro cols m k v hm h
    rcases ex_parseHVT_mem cols m k v h with h1 | h1
    · exact hm _ h1
    · exact h1
  · intro pairs m k v hm h
    rcases ex_matchHTV_mem pairs m k v h with h1 | h1
    · exact hm _ h1
    · exact h1
  · intro tbl m k hk hout hmem
    rcases ex_parseCompText_keys tbl m k hmem with h1 | h1
    · exact hk h1
    · obtain ⟨e, he, hek, hev⟩ := h1
      exact hev (ex_textValue_none e.2 (hout e he hek))
  · intro cols m k hk hout hmem
    rcases ex_parseHVT_keys cols m k hmem with h1 | h1
    · exact hk h1
    · obtain ⟨e, he, hek, v, hv, hr⟩ := h1
      exact hout e he hek v hv hr
  · intro pairs m k hk hout hmem
    rcases ex_matchHTV_keys pairs m k hmem with h1 | h1
    · exact hk h1
    · obtain ⟨e, he, hek, hr⟩ := h1
      exact hout e he hek hr

/-- Witness for C3: a concrete in-range store and a concrete all-out-of-range
discard, through the claim's theorem. -/
theorem C3_witness :
    ((0:ℚ) ≤ 45 ∧ (45:ℚ) ≤ 100) ∧
    "FeO" ∉ keys (parseCompText [("FeO", [[250]])] []) := by
  constructor
  · refine C3_range_guard.1 [("SiO2", [[45]])] [] "SiO2" 45 (by simp) ?_
    norm_num [parseCompText, keys, textValue, firstInRange]
  · refine C3_range_guard.2.2.2.1 [("FeO", [[250]])] [] "FeO" (by simp [keys]) ?_
    intro e he hek vals hvals v hv
    rw [List.mem_singleton] at he
    subst he
    simp only [List.mem_singleton] at hvals
    subst hvals
    simp only [List.mem_singleton] at hv
    subst hv
    norm_num

end Extract

namespace Extract

theorem ex_firstCapInRange_range (caps : List (Option ℚ)) (lo hi v : ℚ)
    (h : firstCapInRange caps lo hi = some v) : lo ≤ v ∧ v ≤ hi := by
  induction caps with
  | nil => simp [firstCapInRange] at h
  | cons c rest ih =>
    cases c with
    | none =>
      rw [firstCapInRange] at h
      exact ih h
    | some w =>
      rw [firstCapInRange] at h
      split at h
      · cases h
        assumption
      · exact ih h

/-- C9 counterexample: the claim states every captured numeric physical
property is validated against its plausible range (density 0.5-5) before
being stored and that out-of-range captures are discarded; the spec-sheet
extractor stores a captured mean density of 99 unvalidated, and the
multi-format extractor stores a cohesion capture of 999999 without any
range check. -/
theorem C9_counterexample :
    (ssExtractPhys ⟨none, none, some 99, [], none, none⟩).densityMean = some 99 ∧
    ¬ ((1/2 : ℚ) ≤ 99 ∧ (99 : ℚ) ≤ 5) ∧
    (mfExtractPhys ⟨[], [], some 999999, [], none, none⟩).cohesionKpa = some 999999 := by
  refine ⟨rfl, by norm_num, rfl⟩

/-- C9 amended: in the multi-format extractor, density (0.5-5 g/cm3), median
particle size (0.1-10000 um), friction angle (0-90), pH (0-14) and specific
gravity (1-5) are range-validated before being stored and out-of-range
captures are discarded, but cohesion is stored with no range check; the
spec-sheet extractor stores its physical-property captures (density, friction,
cohesion) without any range validation. -/
theorem C9_amended :
    (∀ c : MFPhysCaps,
      (∀ v, (mfExtractPhys c).bulkDensity = some v → 1/2 ≤ v ∧ v ≤ 5) ∧
      (∀ v, (mfExtractPhys c).particleSizeMedian = some v → 1/10 ≤ v ∧ v ≤ 10000) ∧
      (∀ v, (mfExtractPhys c).frictionAngleDeg = some v → 0 ≤ v ∧ v ≤ 90) ∧
      (∀ v, (mfExtractPhys c).phValue = some v → 0 ≤ v ∧ v ≤ 14) ∧
      (∀ v, (mfExtractPhys c).specificGravity = some v → 1 ≤ v ∧ v ≤ 5) ∧
      (mfExtractPhys c).cohesionKpa = c.cohesion) ∧
    (∀ c : SSPhysCaps, ∀ v, c.densityMean = some v →
      (ssExtractPhys c).densityMean = some v) ∧
    (∀ c : SSPhysCaps,
      (ssExtractPhys c).frictionAngleDeg = c.friction ∧
      (ssExtractPhys c).cohesionKpa = c.cohesion) := by
  refine ⟨fun c => ⟨?_, ?_, ?_, ?_, ?_, rfl⟩, ?_, fun c => ⟨rfl, rfl⟩⟩
  · exact fun v h => ex_firstCapInRange_range _ _ _ _ h
  · exact fun v h => ex_firstCapInRange_range _ _ _ _ h
  · exact fun v h => ex_firstCapInRange_range _ _ _ _ h
  · intro v h
    have h' : (match c.ph with
      | some w => if 0 ≤ w ∧ w ≤ 14 then some w else none
      | none => none) = some v := h
    cases hph : c.ph with
    | none => rw [hph] at h'; cases h'
    | some w =>
      rw [hph] at h'
      simp only at h'
      split at h'
      · cases h'
        assumption
      · cases h'
  · intro v h
    have h' : (match c.spGravity with
      | some w => if 1 ≤ w ∧ w ≤ 5 then some w else none
      | none => none) = some v := h
    cases hsg : c.spGravity with
    | none => rw [hsg] at h'; cases h'
    | some w =>
      rw [hsg] at h'
      simp only at h'
      split at h'
      · cases h'
        assumption
      · cases h'
  · intro c v h
    show (match c.densityMean with
      | some v => some v
      | none => firstCap c.densityFallback) = some v
    rw [h]

/-- Witness for C9 amended: the guards applied at concrete captures. -/
theorem C9_amended_witness :
    ((1/2 : ℚ) ≤ 3/2 ∧ (3/2 : ℚ) ≤ 5) ∧
    (ssExtractPhys ⟨none, none, some 99, [], none, none⟩).densityMean = some 99 := by
  constructor
  · refine (C9_amended.1 ⟨[some (3/2)], [], none, [], none, none⟩).1 (3/2) ?_
    norm_num [mfExtractPhys, firstCapInRange]
  · exact C9_amended.2.1 ⟨none, none, some 99, [], none, none⟩ 99 rfl
end Extract

namespace Extract

theorem ex_ite_add_shift (c : Prop) [Decidable c] (a k : ℚ) :
    (if c then a + k else a) = a + (if c then k else 0) := by
  split <;> simp

theorem ex_ite_add_merge (c : Prop) [Decidable c] (a x y : ℚ) :
    (if c then a + x else a + y) = a + (if c then x else y) := by
  split <;> rfl

theorem ex_tier3_shift (c1 c2 c3 : Prop) [Decidable c1] [Decidable c2] [Decidable c3]
    (a x y z : ℚ) :
    (if c1 then a + x else if c2 then a + y else if c3 then a + z else a)
      = a + (if c1 then x else if c2 then y else if c3 then z else 0) := by
  split_ifs <;> simp

theorem ex_tier2_shift (c1 c2 : Prop) [Decidable c1] [Decidable c2] (a x y : ℚ) :
    (if c1 then a + x else if c2 then a + y else a)
      = a + (if c1 then x else if c2 then y else 0) := by
  split_ifs <;> simp

/-- C8 counterexample: the claim's point scale gives +5 for the presence of a
standardized quality score (NASA FoM); on a record whose only datum is a FoM
score both scorers yield 10, not the 5 the claim dictates. -/
theorem C8_counterexample :
    ssCalcConfidence ⟨"", "", [], [], none, none, some 50⟩ = 10 ∧
    mfCalcConfidence ⟨"", "", [], [], none, none, some 50, none⟩ = 10 ∧
    (10 : ℚ) ≠ 5 := by
  refine ⟨?_, ?_, by norm_num⟩
  · simp only [ssCalcConfidence, truthy, dictSum]
    norm_num
  · simp only [mfCalcConfidence, truthy, dictSum]
    norm_num

/-- C8 amended: both confidence scorers are deterministic point scales with
result clamped to `[0, 100]`.  The spec-sheet scorer awards +20 for a resolved
name (longer than two characters), +10 for a known type, 5/15/25 points for
at least 1/3/5 distinct oxides, 5/12/20 points for at least 1/3/5 distinct
minerals, +5 each for mean density and median particle size, +10 (not +5) for
a NASA FoM score, no cohesion bonus, and +5 when the chemical total lies in
90-105.  The multi-format scorer differs: mineral tiers are 10/20 at >=1/>=3,
cohesion earns +5, and there is no chemical-total bonus. -/
theorem C8_amended :
    (∀ d : SSRecord, ssCalcConfidence d = ssConfidenceSpec d) ∧
    (∀ d : MFRecord, mfCalcConfidence d = mfConfidenceSpec d) ∧
    (∀ d : SSRecord, 0 ≤ ssCalcConfidence d ∧ ssCalcConfidence d ≤ 100) ∧
    (∀ d : MFRecord, 0 ≤ mfCalcConfidence d ∧ mfCalcConfidence d ≤ 100) := by
  have hname : ∀ d : SSRecord,
      (if d.name ≠ "" ∧ 2 < d.name.length then (20:ℚ) else 0)
        = (if 2 < d.name.length then 20 else 0) := by
    intro d
    by_cases h : 2 < d.name.length
    · rw [if_pos h, if_pos ?_]
      refine ⟨?_, h⟩
      intro he
      rw [he] at h
      exact absurd h (by decide)
    · rw [if_neg h, if_neg fun hc => h hc.2]
  have hss : ∀ d : SSRecord, ssCalcConfidence d = ssConfidenceSpec d := by
    intro d
    unfold ssCalcConfidence ssConfidenceSpec
    simp only [ex_tier3_shift, ex_tier2_shift, ex_ite_add_shift, ex_ite_add_merge]
    rw [min_comm, hname d]
    ring_nf
  have hmf : ∀ d : MFRecord, mfCalcConfidence d = mfConfidenceSpec d := by
    intro d
    unfold mfCalcConfidence mfConfidenceSpec
    simp only [ex_tier3_shift, ex_tier2_shift, ex_ite_add_shift, ex_ite_add_merge]
    rw [min_comm]
    ring_nf
  refine ⟨hss, hmf, ?_, ?_⟩
  · intro d
    rw [hss d]
    unfold ssConfidenceSpec
    constructor
    · refine le_min (by norm_num) ?_
      repeat refine add_nonneg ?_ ?_
      all_goals split_ifs <;> norm_num
    · exact min_le_left _ _
  · intro d
    rw [hmf d]
    unfold mfConfidenceSpec
    constructor
    · refine le_min (by norm_num) ?_
      repeat refine add_nonneg ?_ ?_
      all_goals split_ifs <;> norm_num
    · exact min_le_left _ _

/-- Witness for C8 amended: the code/spec equality at a concrete record. -/
theorem C8_amended_witness :
    ssCalcConfidence ⟨"LMS-1", "Mare", [("SiO2", 47), ("TiO2", 1), ("Al2O3", 14)],
        [("plagioclase", 40)], some (3/2), none, some 50⟩
      = ssConfidenceSpec ⟨"LMS-1", "Mare", [("SiO2", 47), ("TiO2", 1), ("Al2O3", 14)],
        [("plagioclase", 40)], some (3/2), none, some 50⟩ :=
  C8_amended.1 _

end Extract

namespace Extract

theorem ex_lookupVal_append (m l2 : List (String × ℚ)) (k : String) (v : ℚ)
    (h : lookupVal m k = some v) : lookupVal (m ++ l2) k = some v := by
  induction m with
  | nil => simp [lookupVal] at h
  | cons p rest ih =>
    rw [List.cons_append, lookupVal] at *
    split at h
    · rename_i hk
      rw [if_pos hk]
      exact h
    · rename_i hk
      rw [if_neg hk]
      exact ih h

theorem ex_lookupVal_mem_keys (m : List (String × ℚ)) (k : String) (v : ℚ)
    (h : lookupVal m k = some v) : k ∈ keys m := by
  induction m with
  | nil => simp [lookupVal] at h
  | cons p rest ih =>
    rw [lookupVal] at h
    split at h
    · rename_i hk
      rw [keys, List.map_cons, hk]
      exact List.mem_cons_self _ _
    · exact List.mem_cons_of_mem _ (ih h)

theorem ex_lookupVal_setVal_ne (m : List (String × ℚ)) (k0 : String) (v0 : ℚ)
    (k : String) (hk : k ≠ k0) : lookupVal (setVal m k0 v0) k = lookupVal m k := by
  induction m with
  | nil =>
    simp [setVal, lookupVal, Ne.symm hk]
  | cons p rest ih =>
    rw [setVal]
    split
    · rename_i he
      rw [lookupVal, lookupVal, if_neg (Ne.symm hk), if_neg (by rw [he]; exact Ne.symm hk)]
    · rw [lookupVal, lookupVal]
      split
      · rfl
      · exact ih

theorem ex_parseCompText_preserves (tbl : List (String × List (List ℚ)))
    (m : List (String × ℚ)) (k : String) (v : ℚ) (h : lookupVal m k = some v) :
    lookupVal (parseCompText tbl m) k = some v := by
  unfold parseCompText
  induction tbl generalizing m with
  | nil => exact h
  | cons ox rest ih =>
    rw [List.foldl_cons]
    refine ih _ ?_
    split
    · exact h
    · split
      · exact ex_lookupVal_append _ _ _ _ h
      · exact h

theorem ex_parseOxideFromTable_preserves (cands : List (String × Option ℚ))
    (m : List (String × ℚ)) (k : String) (v : ℚ) (h : lookupVal m k = some v) :
    lookupVal (parseOxideFromTable cands m) k = some v := by
  unfold parseOxideFromTable
  induction cands generalizing m with
  | nil => exact h
  | cons c rest ih =>
    rw [List.foldl_cons]
    refine ih _ ?_
    split
    · exact h
    · split
      · split
        · exact ex_lookupVal_append _ _ _ _ h
        · exact h
      · exact h

theorem ex_blockStep_preserves (m : List (String × ℚ)) (ox : String)
    (pats : List (Option ℚ)) (k : String) (v : ℚ) (h : lookupVal m k = some v) :
    lookupVal (blockStep m ox pats) k = some v := by
  unfold blockStep
  split
  · exact h
  · rename_i hox
    have hk : k ≠ ox := by
      intro he
      exact hox (he ▸ ex_lookupVal_mem_keys m k v h)
    clear hox
    induction pats generalizing m with
    | nil => exact h
    | cons p rest ih =>
      rw [List.foldl_cons]
      refine ih _ ?_
      split
      · split
        · rw [ex_lookupVal_setVal_ne _ _ _ _ hk]
          exact h
        · exact h
      · exact h

theorem ex_parseOxideBlock_preserves (cands : List (String × List (Option ℚ)))
    (m : List (String × ℚ)) (k : String) (v : ℚ) (h : lookupVal m k = some v) :
    lookupVal (parseOxideBlock cands m) k = some v := by
  unfold parseOxideBlock
  induction cands generalizing m with
  | nil => exact h
  | cons c rest ih =>
    rw [List.foldl_cons]
    exact ih _ (ex_blockStep_preserves _ _ _ _ _ h)

end Extract

namespace Extract

/-- C7 counterexample: in the spec-sheet extractor's chemical-composition
pipeline, the multiline-table layer stores SiO2 = 48, and the later
`_parse_header_value_table` layer (which checks no membership) overwrites it
with 52; the value after all layers is not the value assigned by the first
layer that set it. -/
theorem C7_counterexample :
    matchHeadersToValues [("SiO2", 48)] [] = [("SiO2", 48)] ∧
    ssExtractChem [("SiO2", 48)] [] [("SiO2", some 52)] [] = [("SiO2", 52)] ∧
    (52 : ℚ) ≠ 48 := by
  refine ⟨?_, ?_, by norm_num⟩
  · norm_num [matchHeadersToValues, setVal]
  · simp only [ssExtractChem]
    norm_num [matchHeadersToValues, ssInlineOxides, parseHeaderValueTable, setVal, keys]

/-- C7 amended: in the multi-format extractor an oxide entry populated by an
earlier layer is never overwritten by a later layer (each layer checks
membership before writing), so the value after the whole pipeline equals the
value held when the first layer to set it finished; in the spec-sheet
extractor the multiline-table and pdfplumber-table layers write without a
membership check and can overwrite earlier layers' entries. -/
theorem C7_amended :
    (∀ tbl m k v, lookupVal m k = some v →
      lookupVal (parseCompText tbl m) k = some v) ∧
    (∀ cands m k v, lookupVal m k = some v →
      lookupVal (parseOxideFromTable cands m) k = some v) ∧
    (∀ cands m k v, lookupVal m k = some v →
      lookupVal (parseOxideBlock cands m) k = some v) ∧
    (∀ textTbl tableCands blockCands m0 k v,
      lookupVal (parseCompText textTbl m0) k = some v →
      lookupVal (mfExtractChem textTbl tableCands blockCands m0) k = some v) ∧
    (∀ textTbl tableCands blockCands m0 k v,
      lookupVal m0 k = some v →
      lookupVal (mfExtractChem textTbl tableCands blockCands m0) k = some v) := by
  have hpipe : ∀ textTbl tableCands blockCands m0 k v,
      lookupVal (parseCompText textTbl m0) k = some v →
      lookupVal (mfExtractChem textTbl tableCands blockCands m0) k = some v := by
    intro textTbl tableCands blockCands m0 k v h
    simp only [mfExtractChem]
    split
    · split
      · exact ex_parseOxideBlock_preserves _ _ _ _
          (ex_parseOxideFromTable_preserves _ _ _ _ h)
      · exact ex_parseOxideFromTable_preserves _ _ _ _ h
    · exact h
  refine ⟨fun tbl m k v h => ex_parseCompText_preserves tbl m k v h,
    fun cands m k v h => ex_parseOxideFromTable_preserves cands m k v h,
    fun cands m k v h => ex_parseOxideBlock_preserves cands m k v h,
    hpipe, ?_⟩
  intro textTbl tableCands blockCands m0 k v h
  exact hpipe _ _ _ _ _ _ (ex_parseCompText_preserves _ _ _ _ h)

/-- Witness for C7 amended: the multi-format pipeline run on inputs where the
first layer stores SiO2 = 48 and a later table capture offers 52; the final
value is still 48. -/
theorem C7_amended_witness :
    lookupVal (mfExtractChem [("SiO2", [[48]])] [("SiO2", some 52)] [] []) "SiO2"
      = some 48 := by
  refine C7_amended.2.2.2.1 [("SiO2", [[48]])] [("SiO2", some 52)] [] [] "SiO2" 48 ?_
  norm_num [parseCompText, textValue, firstInRange, keys, lookupVal]

end Extract

namespace PopGroups

theorem pg_sumSplit_addVal (res : List (String × ℚ)) (k : String) (v : ℚ) :
    sumSplit (addVal res k v) = sumSplit res + v := by
  induction res with
  | nil => simp [addVal, sumSplit]
  | cons p rest ih =>
    obtain ⟨k', v'⟩ := p
    rw [addVal]
    split
    · rw [sumSplit, sumSplit]
      ring
    · rw [sumSplit, sumSplit, ih]
      ring

theorem pg_fold_sum (parts : List (List Char)) (share : ℚ) (res : List (String × ℚ)) :
    sumSplit (parts.foldl
      (fun res part =>
        match findGroup part with
        | some g => addVal res g share
        | none => res) res)
    = sumSplit res + share * ((parts.filter fun p => (findGroup p).isSome).length : ℚ) := by
  induction parts generalizing res with
  | nil => simp
  | cons p rest ih =>
    rw [List.foldl_cons, List.filter_cons]
    cases hg : findGroup p with
    | some g =>
      simp only [hg, Option.isSome_some, if_pos]
      rw [ih, pg_sumSplit_addVal, List.length_cons]
      push_cast
      ring
    | none =>
      simp only [hg, Option.isSome_none]
      rw [ih]
      simp

/-- C2 counterexample: for `{"Olivine + sulfide": 30}` only one token is
recognized, so the claim dictates that Olivine receive 30/1 = 30; the code
divides by the total number of `+`-separated parts and stores 15. -/
theorem C2_counterexample :
    parseCompositeMineral "Olivine + sulfide" 30 = [("Olivine", 15)] ∧
    recognizedCount "Olivine + sulfide" = 1 ∧
    (15 : ℚ) ≠ 30 / 1 := by
  have hparts : compositeParts "Olivine + sulfide" = ["olivine".data, "sulfide".data] := by
    decide
  have hplus : '+' ∈ lowerChars "Olivine + sulfide".data := by decide
  have hfg1 : findGroup "olivine".data = some "Olivine" := by decide
  have hfg2 : findGroup "sulfide".data = none := by decide
  refine ⟨?_, by decide, by norm_num⟩
  rw [parseCompositeMineral, if_pos hplus, hparts]
  simp only [List.foldl_cons, List.foldl_nil, hfg1, hfg2, List.length_cons, List.length_nil]
  norm_num [addVal]

/-- C2 amended: a composite name is split on `+` and the reported value is
divided by the total number of `+`-separated parts (not by the number of
recognized tokens); each recognized part adds that share to its canonical
group bucket and the shares of unrecognized parts are discarded, so the total
mass stored is `value / numParts * numRecognized`.  The example
`{"Olivine + pyroxene + ilmenite": 30}`, whose three tokens are all
recognized, still yields `{Olivine: 10, Pyroxene: 10, Ilmenite: 10}`. -/
theorem C2_amended :
    (∀ name value, '+' ∈ lowerChars name.data →
      sumSplit (parseCompositeMineral name value)
        = value / ((compositeParts name).length : ℚ) * (recognizedCount name : ℚ)) ∧
    parseCompositeMineral "Olivine + pyroxene + ilmenite" 30
      = [("Olivine", 10), ("Pyroxene", 10), ("Ilmenite", 10)] ∧
    parseCompositeMineral "Olivine + sulfide" 30 = [("Olivine", 15)] := by
  refine ⟨?_, ?_, ?_⟩
  · intro name value hplus
    rw [parseCompositeMineral, if_pos hplus, pg_fold_sum, recognizedCount]
    simp [sumSplit]
  · have hparts : compositeParts "Olivine + pyroxene + ilmenite"
        = ["olivine".data, "pyroxene".data, "ilmenite".data] := by decide
    have hplus : '+' ∈ lowerChars "Olivine + pyroxene + ilmenite".data := by decide
    have hfg1 : findGroup "olivine".data = some "Olivine" := by decide
    have hfg2 : findGroup "pyroxene".data = some "Pyroxene" := by decide
    have hfg3 : findGroup "ilmenite".data = some "Ilmenite" := by decide
    rw [parseCompositeMineral, if_pos hplus, hparts]
    simp only [List.foldl_cons, List.foldl_nil, hfg1, hfg2, hfg3, List.length_cons,
      List.length_nil]
    norm_num [addVal]
    try simp
  · have hparts : compositeParts "Olivine + sulfide" = ["olivine".data, "sulfide".data] := by
      decide
    have hplus : '+' ∈ lowerChars "Olivine + sulfide".data := by decide
    have hfg1 : findGroup "olivine".data = some "Olivine" := by decide
    have hfg2 : findGroup "sulfide".data = none := by decide
    rw [parseCompositeMineral, if_pos hplus, hparts]
    simp only [List.foldl_cons, List.foldl_nil, hfg1, hfg2, List.length_cons, List.length_nil]
    norm_num [addVal]

/-- Witness for C2 amended: the mass identity at `{"Olivine + sulfide": 30}`:
two parts, one recognized, total stored mass 30/2*1 = 15. -/
theorem C2_amended_witness :
    sumSplit (parseCompositeMineral "Olivine + sulfide" 30)
      = 30 / ((compositeParts "Olivine + sulfide").length : ℚ)
        * (recognizedCount "Olivine + sulfide" : ℚ) :=
  C2_amended.1 "Olivine + sulfide" 30 (by decide)

end PopGroups

namespace Valid

theorem vd_mem_keysOf_fold (l : List String) (acc : List String) (x : String) :
    x ∈ l.foldl (fun acc s => if s ∈ acc then acc else acc ++ [s]) acc ↔
      x ∈ acc ∨ x ∈ l := by
  induction l generalizing acc with
  | nil => simp
  | cons s rest ih =>
    rw [List.foldl_cons, ih]
    by_cases hs : s ∈ acc
    · rw [if_pos hs]
      constructor
      · rintro (h | h)
        · exact Or.inl h
        · exact Or.inr (List.mem_cons_of_mem _ h)
      · rintro (h | h)
        · exact Or.inl h
        · rcases List.mem_cons.mp h with h1 | h1
          · exact Or.inl (h1 ▸ hs)
          · exact Or.inr h1
    · rw [if_neg hs]
      constructor
      · rintro (h | h)
        · rcases List.mem_append.mp h with h1 | h1
          · exact Or.inl h1
          · simp at h1
            exact Or.inr (h1 ▸ List.mem_cons_self _ _)
        · exact Or.inr (List.mem_cons_of_mem _ h)
      · rintro (h | h)
        · exact Or.inl (List.mem_append.mpr (Or.inl h))
        · rcases List.mem_cons.mp h with h1 | h1
          · exact Or.inl (by simp [h1])
          · exact Or.inr h1

theorem vd_mem_keysOf (l : List String) (x : String) : x ∈ keysOf l ↔ x ∈ l := by
  rw [keysOf, vd_mem_keysOf_fold]
  simp

theorem vd_pickMax_le (l : List String) (ks : List String) (k : String) :
    countOf l k ≤ countOf l (pickMax l k ks) ∧
      ∀ x ∈ ks, countOf l x ≤ countOf l (pickMax l k ks) := by
  induction ks generalizing k with
  | nil => exact ⟨le_refl _, by simp⟩
  | cons x ks ih =>
    rw [pickMax]
    by_cases hx : countOf l k < countOf l x
    · rw [if_pos hx]
      obtain ⟨h1, h2⟩ := ih x
      refine ⟨le_of_lt (lt_of_lt_of_le hx h1), ?_⟩
      intro y hy
      rcases List.mem_cons.mp hy with hy1 | hy1
      · exact hy1 ▸ h1
      · exact h2 y hy1
    · rw [if_neg hx]
      push_neg at hx
      obtain ⟨h1, h2⟩ := ih k
      refine ⟨h1, ?_⟩
      intro y hy
      rcases List.mem_cons.mp hy with hy1 | hy1
      · exact hy1 ▸ le_trans hx h1
      · exact h2 y hy1

theorem vd_pickMax_first (l : List String) (ks : List String) (k : String) :
    pickMax l k ks = k ∨
      ∃ pre post, ks = pre ++ pickMax l k ks :: post ∧
        countOf l k < countOf l (pickMax l k ks) ∧
        ∀ x ∈ pre, countOf l x < countOf l (pickMax l k ks) := by
  induction ks generalizing k with
  | nil => exact Or.inl rfl
  | cons x ks ih =>
    rw [pickMax]
    by_cases hx : countOf l k < countOf l x
    · rw [if_pos hx]
      rcases ih x with h1 | ⟨pre, post, hsplit, hlt, hpre⟩
      · refine Or.inr ⟨[], ks, ?_, ?_, by simp⟩
        · rw [h1]
          rfl
        · rw [h1]
          exact hx
      · refine Or.inr ⟨x :: pre, post, ?_, lt_trans hx hlt, ?_⟩
        · rw [List.cons_append]
          exact congrArg (List.cons x) hsplit
        · intro y hy
          rcases List.mem_cons.mp hy with hy1 | hy1
          · exact hy1 ▸ hlt
          · exact hpre y hy1
    · rw [if_neg hx]
      push_neg at hx
      rcases ih k with h1 | ⟨pre, post, hsplit, hlt, hpre⟩
      · exact Or.inl h1
      · refine Or.inr ⟨x :: pre, post, ?_, hlt, ?_⟩
        · rw [List.cons_append]
          exact congrArg (List.cons x) hsplit
        · intro y hy
          rcases List.mem_cons.mp hy with hy1 | hy1
          · exact hy1 ▸ lt_of_le_of_lt hx hlt
          · exact hpre y hy1

theorem vd_pickMax_mem (l : List String) (ks : List String) (k : String) :
    pickMax l k ks = k ∨ pickMax l k ks ∈ ks := by
  rcases vd_pickMax_first l ks k with h | ⟨pre, post, hsplit, _, _⟩
  · exact Or.inl h
  · refine Or.inr ?_
    generalize hgen : pickMax l k ks = m at hsplit ⊢
    rw [hsplit]
    simp

theorem vd_mostCommon_spec (l : List String) (k0 : String) (ks0 : List String)
    (h : keysOf l = k0 :: ks0) :
    mostCommon l ∈ l ∧
      (∀ w ∈ l, countOf l w ≤ countOf l (mostCommon l)) ∧
      ∃ pre post, keysOf l = pre ++ mostCommon l :: post ∧
        ∀ w ∈ pre, countOf l w < countOf l (mostCommon l) := by
  have hm : mostCommon l = pickMax l k0 ks0 := by
    rw [mostCommon, h]
  refine ⟨?_, ?_, ?_⟩
  · rw [hm]
    rcases vd_pickMax_mem l ks0 k0 with h1 | h1
    · rw [h1]
      exact (vd_mem_keysOf l k0).mp (by rw [h]; exact List.mem_cons_self _ _)
    · exact (vd_mem_keysOf l _).mp (by rw [h]; exact List.mem_cons_of_mem _ h1)
  · intro w hw
    have hwk : w ∈ keysOf l := (vd_mem_keysOf l w).mpr hw
    rw [h] at hwk
    rw [hm]
    obtain ⟨h1, h2⟩ := vd_pickMax_le l ks0 k0
    rcases List.mem_cons.mp hwk with hw1 | hw1
    · exact hw1 ▸ h1
    · exact h2 w hw1
  · rw [hm]
    rcases vd_pickMax_first l ks0 k0 with h1 | ⟨pre, post, hsplit, hlt, hpre⟩
    · refine ⟨[], ks0, ?_, by simp⟩
      rw [h, h1]
      simp
    · generalize hgen : pickMax l k0 ks0 = m at hsplit hlt hpre ⊢
      refine ⟨k0 :: pre, post, ?_, ?_⟩
      · rw [h, hsplit]
        simp
      · intro w hw
        rcases List.mem_cons.mp hw with hw1 | hw1
        · exact hw1 ▸ hlt
        · exact hpre w hw1

end Valid

namespace Valid

theorem vd_validateField_nil (values : List (Option String))
    (h : filteredVals values = []) :
    validateField values = ⟨none, 0, false, 0, none⟩ := by
  unfold validateField
  split
  · rfl
  · rename_i heq
    rw [h] at heq
    cases heq

theorem vd_validateField_eq (values : List (Option String))
    (h : filteredVals values ≠ []) :
    validateField values =
      ⟨some (mostCommon (filteredVals values)),
       if minSourcesRequired ≤ (filteredVals values).length
       then min 1 ((countOf (filteredVals values) (mostCommon (filteredVals values)) : ℚ)
         / ((filteredVals values).length : ℚ) * (12/10))
       else (countOf (filteredVals values) (mostCommon (filteredVals values)) : ℚ)
         / ((filteredVals values).length : ℚ),
       decide ((countOf (filteredVals values) (mostCommon (filteredVals values)) : ℚ)
         / ((filteredVals values).length : ℚ) > 1/2),
       (filteredVals values).length,
       if 1 < (keysOf (filteredVals values)).length
       then some (keysOf (filteredVals values)) else none⟩ := by
  unfold validateField
  split
  · rename_i heq
    exact absurd heq h
  · rfl

theorem vd_auto_mem (rs : List (String × VResult)) (f : String) :
    f ∈ (getAutoFillable rs).map Prod.fst ↔
      ∃ r, (f, r) ∈ rs ∧ ∃ v, r.value = some v ∧
        confThreshold ≤ r.confidence ∧ minSourcesRequired ≤ r.numSources := by
  induction rs with
  | nil => simp [getAutoFillable]
  | cons p rest ih =>
    obtain ⟨g, r⟩ := p
    rw [getAutoFillable]
    constructor
    · intro h
      revert h
      split
      · rename_i v hv
        split
        · rename_i hcond
          intro h
          rw [List.map_cons] at h
          rcases List.mem_cons.mp h with h1 | h1
          · exact ⟨r, by simp [h1], v, hv, hcond.1, hcond.2⟩
          · obtain ⟨r', hr', hrest⟩ := ih.mp h1
            exact ⟨r', List.mem_cons_of_mem _ hr', hrest⟩
        · intro h
          obtain ⟨r', hr', hrest⟩ := ih.mp h
          exact ⟨r', List.mem_cons_of_mem _ hr', hrest⟩
      · intro h
        obtain ⟨r', hr', hrest⟩ := ih.mp h
        exact ⟨r', List.mem_cons_of_mem _ hr', hrest⟩
    · rintro ⟨r', hr', v, hv, hc, hn⟩
      rcases List.mem_cons.mp hr' with h1 | h1
      · injection h1 with hg hr
        subst hg
        subst hr
        split
        · rename_i v' hv'
          rw [if_pos ⟨hc, hn⟩, List.map_cons]
          exact List.mem_cons_self _ _
        · rename_i hv'
          rw [hv'] at hv
          cases hv
      · have hbase := ih.mpr ⟨r', h1, v, hv, hc, hn⟩
        split
        · split
          · rw [List.map_cons]
            exact List.mem_cons_of_mem _ hbase
          · exact hbase
        · exact hbase

theorem vd_review_mem (rs : List (String × VResult)) (f : String) :
    f ∈ (getReviewRequired rs).map Prod.fst ↔
      ∃ r, (f, r) ∈ rs ∧ (r.confidence < confThreshold ∨
        r.numSources < minSourcesRequired ∨ r.sourcesAgree = false) := by
  induction rs with
  | nil => simp [getReviewRequired]
  | cons p rest ih =>
    obtain ⟨g, r⟩ := p
    rw [getReviewRequired]
    constructor
    · intro h
      revert h
      split
      · rename_i hcond
        intro h
        rw [List.map_cons] at h
        rcases List.mem_cons.mp h with h1 | h1
        · exact ⟨r, by simp [h1], hcond⟩
        · obtain ⟨r', hr', hrest⟩ := ih.mp h1
          exact ⟨r', List.mem_cons_of_mem _ hr', hrest⟩
      · intro h
        obtain ⟨r', hr', hrest⟩ := ih.mp h
        exact ⟨r', List.mem_cons_of_mem _ hr', hrest⟩
    · rintro ⟨r', hr', hcond⟩
      rcases List.mem_cons.mp hr' with h1 | h1
      · injection h1 with hg hr
        subst hg
        subst hr
        rw [if_pos hcond, List.map_cons]
        exact List.mem_cons_self _ _
      · have hbase := ih.mpr ⟨r', h1, hcond⟩
        split
        · rw [List.map_cons]
          exact List.mem_cons_of_mem _ hbase
        · exact hbase

theorem vd_nodup_key (rs : List (String × VResult)) (hnd : (rs.map Prod.fst).Nodup)
    (f : String) (r r' : VResult) (h : (f, r) ∈ rs) (h' : (f, r') ∈ rs) : r = r' := by
  induction rs with
  | nil => cases h
  | cons p rest ih =>
    obtain ⟨g, rr⟩ := p
    rw [List.map_cons, List.nodup_cons] at hnd
    rcases List.mem_cons.mp h with h1 | h1 <;> rcases List.mem_cons.mp h' with h2 | h2
    · rw [← h2] at h1
      exact (Prod.ext_iff.mp h1).2
    · exfalso
      injection h1 with hg hr
      apply hnd.1
      rw [← hg]
      exact List.mem_map.mpr ⟨(f, r'), h2, rfl⟩
    · exfalso
      injection h2 with hg hr
      apply hnd.1
      rw [← hg]
      exact List.mem_map.mpr ⟨(f, r), h1, rfl⟩
    · exact ih hnd.2 h1 h2

end Valid

namespace Valid

theorem vd_boost_ratio (x : ℚ) (h : (8/10 : ℚ) ≤ min 1 (x * (12/10))) : (2/3 : ℚ) ≤ x := by
  have hx : (8/10 : ℚ) ≤ x * (12/10) := by
    by_contra hc
    push_neg at hc
    have := min_le_right (1 : ℚ) (x * (12/10))
    nlinarith
  nlinarith

/-- C4 counterexample: the claim says a field with a null resolved value
belongs to neither set; a field whose candidates are all null resolves to
`{value: null, confidence: 0, sources_agree: false, num_sources: 0}` and is
placed in the review-required set. -/
theorem C4_counterexample :
    (validateField []).value = none ∧
    ("release_date", validateField []) ∈
      getReviewRequired [("release_date", validateField [])] := by
  have h : validateField [] = ⟨none, 0, false, 0, none⟩ := rfl
  rw [h]
  refine ⟨rfl, ?_⟩
  rw [getReviewRequired, if_pos ?_]
  · exact List.mem_cons_self _ _
  · left
    norm_num [confThreshold]

/-- C4 amended: for an aggregation run whose results are produced by
`validate_field` (distinct field names), the auto-fillable and review-required
sets are disjoint and every field with a non-null resolved value lies in
exactly one of them; a field with a null resolved value is not in limbo: it
lies in the review-required set and not in the auto-fillable set. -/
theorem C4_amended (rs : List (String × VResult))
    (hnd : (rs.map Prod.fst).Nodup)
    (hv : ∀ p ∈ rs, ∃ vals, p.2 = validateField vals) :
    (∀ p ∈ rs, p.2.value ≠ none →
      (p.1 ∈ (getAutoFillable rs).map Prod.fst ↔
        p.1 ∉ (getReviewRequired rs).map Prod.fst)) ∧
    (∀ p ∈ rs, p.2.value = none →
      p.1 ∉ (getAutoFillable rs).map Prod.fst ∧
      p.1 ∈ (getReviewRequired rs).map Prod.fst) := by
  have hkey : ∀ p ∈ rs, ∀ r', (p.1, r') ∈ rs → r' = p.2 := by
    intro p hp r' hr'
    exact vd_nodup_key rs hnd p.1 r' p.2 hr' hp
  have hauto_cond : ∀ p ∈ rs, (p.1 ∈ (getAutoFillable rs).map Prod.fst ↔
      (∃ v, p.2.value = some v) ∧ confThreshold ≤ p.2.confidence ∧
        minSourcesRequired ≤ p.2.numSources) := by
    intro p hp
    rw [vd_auto_mem]
    constructor
    · rintro ⟨r', hr', v, hval, hc, hn⟩
      rw [hkey p hp r' hr'] at hval hc hn
      exact ⟨⟨v, hval⟩, hc, hn⟩
    · rintro ⟨⟨v, hval⟩, hc, hn⟩
      exact ⟨p.2, hp, v, hval, hc, hn⟩
  have hrev_cond : ∀ p ∈ rs, (p.1 ∈ (getReviewRequired rs).map Prod.fst ↔
      (p.2.confidence < confThreshold ∨ p.2.numSources < minSourcesRequired ∨
        p.2.sourcesAgree = false)) := by
    intro p hp
    rw [vd_review_mem]
    constructor
    · rintro ⟨r', hr', hcond⟩
      rw [hkey p hp r' hr'] at hcond
      exact hcond
    · intro hcond
      exact ⟨p.2, hp, hcond⟩
  have hdisj : ∀ p ∈ rs,
      ((∃ v, p.2.value = some v) ∧ confThreshold ≤ p.2.confidence ∧
        minSourcesRequired ≤ p.2.numSources) →
      ¬ (p.2.confidence < confThreshold ∨ p.2.numSources < minSourcesRequired ∨
        p.2.sourcesAgree = false) := by
    intro p hp ⟨⟨v, hval⟩, hc, hn⟩
    obtain ⟨vals, hvals⟩ := hv p hp
    rintro (h1 | h1 | h1)
    · exact absurd hc (not_le.mpr h1)
    · exact absurd hn (not_le.mpr h1)
    · -- sources agree must hold: confidence >= 0.8 with >= 2 sources forces ratio >= 2/3
      by_cases hnn : filteredVals vals = []
      · rw [hvals, vd_validateField_nil vals hnn] at hn
        rw [minSourcesRequired] at hn
        exact absurd hn (by norm_num)
      · rw [hvals, vd_validateField_eq vals hnn] at hval hc hn h1
        simp only at hval hc hn h1
        rw [if_pos hn] at hc
        have hratio := vd_boost_ratio _ (by rw [confThreshold] at hc; exact hc)
        rw [decide_eq_false_iff_not] at h1
        apply h1
        apply lt_of_lt_of_le (by norm_num : (1/2 : ℚ) < 2/3) hratio
  refine ⟨?_, ?_⟩
  · intro p hp hval
    rw [hauto_cond p hp, hrev_cond p hp]
    constructor
    · intro hcond
      exact hdisj p hp hcond
    · intro hcond
      rcases Option.ne_none_iff_exists'.mp hval with ⟨v, hv'⟩
      refine ⟨⟨v, hv'⟩, ?_, ?_⟩
      · by_contra hc
        exact hcond (Or.inl (not_le.mp hc))
      · by_contra hc
        exact hcond (Or.inr (Or.inl (not_le.mp hc)))
  · intro p hp hval
    constructor
    · rw [hauto_cond p hp]
      rintro ⟨⟨v, hv'⟩, _, _⟩
      rw [hval] at hv'
      cases hv'
    · rw [hrev_cond p hp]
      obtain ⟨vals, hvals⟩ := hv p hp
      by_cases hnn : filteredVals vals = []
      · rw [hvals, vd_validateField_nil vals hnn]
        left
        norm_num [confThreshold]
      · rw [hvals, vd_validateField_eq vals hnn] at hval
        simp at hval

/-- Witness for C4 amended: a two-field run (a voted field and an all-null
field) through the amended theorem. -/
theorem C4_amended_witness :
    "release_date" ∉
      (getAutoFillable [("institution", validateField [some "NASA", some "NASA", some "Orbitec"]),
        ("release_date", validateField [])]).map Prod.fst ∧
    "release_date" ∈
      (getReviewRequired [("institution", validateField [some "NASA", some "NASA", some "Orbitec"]),
        ("release_date", validateField [])]).map Prod.fst := by
  refine (C4_amended
    [("institution", validateField [some "NASA", some "NASA", some "Orbitec"]),
      ("release_date", validateField [])]
    (by simp) ?_).2 ("release_date", validateField []) (by simp) rfl
  intro p hp
  rcases List.mem_cons.mp hp with h | h
  · exact ⟨[some "NASA", some "NASA", some "Orbitec"], by rw [h]⟩
  · rcases List.mem_cons.mp h with h1 | h1
    · exact ⟨[], by rw [h1]⟩
    · cases h1

end Valid

namespace Valid

/-- C5: the voting algorithm of `validate_field` in exact arithmetic: the
zero-candidate result; the mode (most frequent value, earliest key on ties,
witnessed by the decomposition of the first-occurrence key list), the source
count, the agreement test and the boosted confidence; and the example
`["NASA", "NASA", "Orbitec"]`, whose confidence is exactly 4/5 and which is
auto-fillable at threshold 0.8 with min-sources 2.  (In CPython the same run
computes `min(1.0, (2/3)*1.2) = 0.7999999999999999 < 0.8` and the field is
not auto-filled; see the claim's divergence note.) -/
theorem C5_validate_field_voting :
    (∀ values, filteredVals values = [] →
      validateField values = ⟨none, 0, false, 0, none⟩) ∧
    (∀ values, filteredVals values ≠ [] →
      (validateField values).value = some (mostCommon (filteredVals values)) ∧
      mostCommon (filteredVals values) ∈ filteredVals values ∧
      (∀ w ∈ filteredVals values, countOf (filteredVals values) w ≤
        countOf (filteredVals values) (mostCommon (filteredVals values))) ∧
      (∃ pre post, keysOf (filteredVals values) =
          pre ++ mostCommon (filteredVals values) :: post ∧
        ∀ w ∈ pre, countOf (filteredVals values) w <
          countOf (filteredVals values) (mostCommon (filteredVals values))) ∧
      (validateField values).numSources = (filteredVals values).length ∧
      ((validateField values).sourcesAgree = true ↔
        1/2 < (countOf (filteredVals values) (mostCommon (filteredVals values)) : ℚ)
          / ((filteredVals values).length : ℚ)) ∧
      (validateField values).confidence =
        (if 2 ≤ (filteredVals values).length
         then min 1 ((countOf (filteredVals values) (mostCommon (filteredVals values)) : ℚ)
           / ((filteredVals values).length : ℚ) * (12/10))
         else (countOf (filteredVals values) (mostCommon (filteredVals values)) : ℚ)
           / ((filteredVals values).length : ℚ))) ∧
    validateField [some "NASA", some "NASA", some "Orbitec"]
      = ⟨some "NASA", 4/5, true, 3, some ["NASA", "Orbitec"]⟩ ∧
    getAutoFillable [("institution", validateField [some "NASA", some "NASA", some "Orbitec"])]
      = [("institution", "NASA")] := by
  have hconcrete : validateField [some "NASA", some "NASA", some "Orbitec"]
      = ⟨some "NASA", 4/5, true, 3, some ["NASA", "Orbitec"]⟩ := by
    have hnn : filteredVals [some "NASA", some "NASA", some "Orbitec"]
        = ["NASA", "NASA", "Orbitec"] := by decide
    have hmc : mostCommon ["NASA", "NASA", "Orbitec"] = "NASA" := by decide
    have hcnt : countOf ["NASA", "NASA", "Orbitec"] "NASA" = 2 := by decide
    have hkeys : keysOf ["NASA", "NASA", "Orbitec"] = ["NASA", "Orbitec"] := by decide
    rw [vd_validateField_eq _ (by rw [hnn]; simp), hnn, hmc, hcnt, hkeys]
    simp only [VResult.mk.injEq, minSourcesRequired]
    norm_num [min_def]
  refine ⟨fun values h => vd_validateField_nil values h, ?_, hconcrete, ?_⟩
  · intro values h
    obtain ⟨k0, ks0, hk⟩ : ∃ k0 ks0, keysOf (filteredVals values) = k0 :: ks0 := by
      cases hkk : keysOf (filteredVals values) with
      | nil =>
        exfalso
        cases hnn : filteredVals values with
        | nil => exact h hnn
        | cons a rest =>
          have : a ∈ keysOf (filteredVals values) :=
            (vd_mem_keysOf _ a).mpr (by rw [hnn]; exact List.mem_cons_self _ _)
          rw [hkk] at this
          cases this
      | cons k0 ks0 => exact ⟨k0, ks0, rfl⟩
    obtain ⟨hmem, hmax, hfirst⟩ := vd_mostCommon_spec (filteredVals values) k0 ks0 hk
    rw [vd_validateField_eq values h]
    exact ⟨rfl, hmem, hmax, hfirst, rfl, by rw [decide_eq_true_eq], rfl⟩
  · rw [hconcrete]
    show (if confThreshold ≤ (4/5 : ℚ) ∧ minSourcesRequired ≤ 3 then
        ("institution", "NASA") :: getAutoFillable [] else getAutoFillable []) = _
    rw [if_pos (by norm_num [confThreshold, minSourcesRequired])]
    rfl

end Valid

namespace FixDup

/-! ### Helper lemmas for the Taxonomy Reconciler (claims C1 and C6) -/

theorem fd_sameAs_idem (n : String) : sameAs (sameAs n) = sameAs n := by
  by_cases h1 : n = "Anorthosite"
  · subst h1; decide
  by_cases h2 : n = "Volcanic Glass"
  · subst h2; decide
  by_cases h3 : n = "Feldspar"
  · subst h3; decide
  simp [sameAs, h1, h2, h3]

theorem fd_sameAs_rock (n : String) : sameAs n ∈ rockTypes ↔ n ∈ rockTypes := by
  by_cases h1 : n = "Anorthosite"
  · subst h1; decide
  by_cases h2 : n = "Volcanic Glass"
  · subst h2; decide
  by_cases h3 : n = "Feldspar"
  · subst h3; decide
  simp [sameAs, h1, h2, h3]

theorem fd_sumVal_eq_map (l : List MEntry) : sumVal l = (l.map MEntry.value).sum := by
  induction l with
  | nil => rfl
  | cons m r ih => simp [sumVal, ih]

theorem fd_realTotal_eq_map (l : List MEntry) :
    realTotal l = (l.map (fun e => if e.name ∈ rockTypes then 0 else e.value)).sum := by
  induction l with
  | nil => rfl
  | cons m r ih => simp [realTotal, ih]

theorem fd_sumVal_append (l1 l2 : List MEntry) :
    sumVal (l1 ++ l2) = sumVal l1 + sumVal l2 := by
  induction l1 with
  | nil => simp [sumVal]
  | cons m r ih => simp [sumVal, ih]; ring

theorem fd_sumVal_nonneg (l : List MEntry) (h : ∀ e ∈ l, 0 ≤ e.value) :
    0 ≤ sumVal l := by
  induction l with
  | nil => simp [sumVal]
  | cons m r ih =>
    have hm := h m (by simp)
    have hr := ih (fun e he => h e (by simp [he]))
    simp only [sumVal]
    linarith

theorem fd_realTotal_nonneg (l : List MEntry) (h : ∀ e ∈ l, 0 ≤ e.value) :
    0 ≤ realTotal l := by
  induction l with
  | nil => simp [realTotal]
  | cons m r ih =>
    have hm := h m (by simp)
    have hr := ih (fun e he => h e (by simp [he]))
    simp only [realTotal]
    split_ifs <;> linarith

theorem fd_single_le_sumVal (l : List MEntry) (e : MEntry) (he : e ∈ l)
    (h : ∀ x ∈ l, 0 ≤ x.value) : e.value ≤ sumVal l := by
  induction l with
  | nil => cases he
  | cons m r ih =>
    rcases List.mem_cons.mp he with h1 | h1
    · subst h1
      have := fd_sumVal_nonneg r (fun x hx => h x (by simp [hx]))
      simp only [sumVal]; linarith
    · have := ih h1 (fun x hx => h x (by simp [hx]))
      have hm := h m (by simp)
      simp only [sumVal]; linarith

theorem fd_sumVal_perm {l l' : List MEntry} (h : l.Perm l') : sumVal l = sumVal l' := by
  rw [fd_sumVal_eq_map, fd_sumVal_eq_map]
  exact (h.map MEntry.value).sum_eq

theorem fd_realTotal_perm {l l' : List MEntry} (h : l.Perm l') : realTotal l = realTotal l' := by
  rw [fd_realTotal_eq_map, fd_realTotal_eq_map]
  exact (h.map _).sum_eq

theorem fd_sum_sublist_le {l l' : List ℚ} (h : l.Sublist l') (h0 : ∀ x ∈ l', 0 ≤ x) :
    l.sum ≤ l'.sum := by
  induction h with
  | slnil => simp
  | cons a h ih =>
    have ha := h0 a (by simp)
    have := ih (fun x hx => h0 x (by simp [hx]))
    simp only [List.sum_cons]
    linarith
  | cons₂ a h ih =>
    have := ih (fun x hx => h0 x (by simp [hx]))
    simp only [List.sum_cons]
    linarith

theorem fd_sumVal_sublist_le {l l' : List MEntry} (h : l.Sublist l')
    (h0 : ∀ e ∈ l', 0 ≤ e.value) : sumVal l ≤ sumVal l' := by
  rw [fd_sumVal_eq_map, fd_sumVal_eq_map]
  refine fd_sum_sublist_le (h.map MEntry.value) ?h
  intro x hx
  rcases List.mem_map.mp hx with ⟨e, he, rfl⟩
  exact h0 e he

theorem fd_realTotal_sublist_le {l l' : List MEntry} (h : l.Sublist l')
    (h0 : ∀ e ∈ l', 0 ≤ e.value) : realTotal l ≤ realTotal l' := by
  rw [fd_realTotal_eq_map, fd_realTotal_eq_map]
  refine fd_sum_sublist_le (h.map _) ?h
  intro x hx
  rcases List.mem_map.mp hx with ⟨e, he, rfl⟩
  split_ifs
  · exact le_refl 0
  · exact h0 e he

theorem fd_best_foldl_mem (es : List MEntry) (b : MEntry) :
    es.foldl (fun b x => if b.value < x.value then x else b) b ∈ b :: es := by
  induction es generalizing b with
  | nil => simp [List.foldl]
  | cons x r ih =>
    simp only [List.foldl]
    by_cases h : b.value < x.value
    · rw [if_pos h]
      exact List.mem_cons_of_mem b (ih x)
    · rw [if_neg h]
      rcases List.mem_cons.mp (ih b) with h1 | h1
      · simp [h1]
      · simp [List.mem_cons_of_mem, h1]

theorem fd_getBestValue_mem (es : List MEntry) (b : MEntry)
    (h : getBestValue es = some b) : b ∈ es := by
  cases es with
  | nil => simp [getBestValue] at h
  | cons e r =>
    simp only [getBestValue, Option.some.injEq] at h
    subst h
    exact fd_best_foldl_mem r e

theorem fd_getBestValue_le (es : List MEntry) (b : MEntry)
    (h0 : ∀ x ∈ es, 0 ≤ x.value) (h : getBestValue es = some b) :
    b.value ≤ sumVal es :=
  fd_single_le_sumVal es b (fd_getBestValue_mem es b h) h0

theorem fd_addToGroups_sumvals (gs : List (String × List MEntry)) (e : MEntry) :
    ((addToGroups gs e).map (fun g => sumVal g.2)).sum
      = (gs.map (fun g => sumVal g.2)).sum + e.value := by
  induction gs with
  | nil => simp [addToGroups, sumVal]
  | cons p r ih =>
    obtain ⟨k, es⟩ := p
    simp only [addToGroups]
    by_cases h : k = e.name
    · rw [if_pos h]
      simp only [List.map, List.sum_cons, fd_sumVal_append, sumVal]
      ring
    · rw [if_neg h]
      simp only [List.map, List.sum_cons, ih]
      ring

theorem fd_addToGroups_realvals (gs : List (String × List MEntry)) (e : MEntry) :
    ((addToGroups gs e).map (fun g => if g.1 ∈ rockTypes then 0 else sumVal g.2)).sum
      = (gs.map (fun g => if g.1 ∈ rockTypes then 0 else sumVal g.2)).sum
        + (if e.name ∈ rockTypes then 0 else e.value) := by
  induction gs with
  | nil => simp [addToGroups, sumVal]
  | cons p r ih =>
    obtain ⟨k, es⟩ := p
    simp only [addToGroups]
    by_cases h : k = e.name
    · rw [if_pos h]
      simp only [List.map, List.sum_cons]
      by_cases hk : k ∈ rockTypes
      · rw [if_pos hk, if_pos hk, if_pos (h ▸ hk)]
        ring
      · rw [if_neg hk, if_neg hk, if_neg (h ▸ hk)]
        simp only [fd_sumVal_append, sumVal]
        ring
    · rw [if_neg h]
      simp only [List.map, List.sum_cons, ih]
      ring

theorem fd_groupByName_sum (l : List MEntry) :
    ((groupByName l).map (fun g => sumVal g.2)).sum = sumVal l := by
  suffices h : ∀ acc : List (String × List MEntry),
      ((l.foldl (fun gs m => addToGroups gs (normEntry m)) acc).map (fun g => sumVal g.2)).sum
        = (acc.map (fun g => sumVal g.2)).sum + sumVal l by
    have := h []
    simpa [groupByName, sumVal] using this
  induction l with
  | nil => intro acc; simp [List.foldl, sumVal]
  | cons m r ih =>
    intro acc
    simp only [List.foldl, sumVal]
    rw [ih (addToGroups acc (normEntry m)), fd_addToGroups_sumvals]
    have hv : (normEntry m).value = m.value := rfl
    rw [hv]; ring

theorem fd_groupByName_real (l : List MEntry) :
    ((groupByName l).map (fun g => if g.1 ∈ rockTypes then 0 else sumVal g.2)).sum
      = realTotal l := by
  suffices h : ∀ acc : List (String × List MEntry),
      ((l.foldl (fun gs m => addToGroups gs (normEntry m)) acc).map
          (fun g => if g.1 ∈ rockTypes then 0 else sumVal g.2)).sum
        = (acc.map (fun g => if g.1 ∈ rockTypes then 0 else sumVal g.2)).sum + realTotal l by
    have := h []
    simpa [groupByName, realTotal] using this
  induction l with
  | nil => intro acc; simp [List.foldl, realTotal]
  | cons m r ih =>
    intro acc
    simp only [List.foldl, realTotal]
    rw [ih (addToGroups acc (normEntry m)), fd_addToGroups_realvals]
    have hn : (normEntry m).name = sameAs m.name := rfl
    have hv : (normEntry m).value = m.value := rfl
    rw [hn, hv, if_congr (fd_sameAs_rock m.name) rfl rfl]
    ring

theorem fd_addToGroups_prop {Q : String → MEntry → Prop} (gs : List (String × List MEntry))
    (e : MEntry) (hg : ∀ g ∈ gs, ∀ x ∈ g.2, Q g.1 x) (he : Q e.name e) :
    ∀ g ∈ addToGroups gs e, ∀ x ∈ g.2, Q g.1 x := by
  induction gs with
  | nil =>
    intro g hgmem x hx
    simp only [addToGroups, List.mem_singleton] at hgmem
    subst hgmem
    simp only [List.mem_singleton] at hx
    subst hx
    exact he
  | cons p r ih =>
    obtain ⟨k, es⟩ := p
    simp only [addToGroups]
    by_cases h : k = e.name
    · rw [if_pos h]
      intro g hgmem x hx
      rcases List.mem_cons.mp hgmem with h1 | h1
      · subst h1
        rcases List.mem_append.mp hx with h2 | h2
        · exact hg (k, es) (by simp) x h2
        · simp only [List.mem_singleton] at h2
          subst h2
          exact h ▸ he
      · exact hg g (by simp [h1]) x hx
    · rw [if_neg h]
      intro g hgmem x hx
      rcases List.mem_cons.mp hgmem with h1 | h1
      · subst h1
        exact hg (k, es) (by simp) x hx
      · exact ih (fun g hgm x hxm => hg g (by simp [hgm]) x hxm) g h1 x hx

theorem fd_groupByName_prop {Q : String → MEntry → Prop} (l : List MEntry)
    (hl : ∀ m ∈ l, Q (sameAs m.name) (normEntry m)) :
    ∀ g ∈ groupByName l, ∀ x ∈ g.2, Q g.1 x := by
  suffices h : ∀ (ls : List MEntry) (acc : List (String × List MEntry)),
      (∀ m ∈ ls, Q (sameAs m.name) (normEntry m)) →
      (∀ g ∈ acc, ∀ x ∈ g.2, Q g.1 x) →
      ∀ g ∈ ls.foldl (fun gs m => addToGroups gs (normEntry m)) acc, ∀ x ∈ g.2, Q g.1 x by
    exact h l [] hl (by simp)
  intro ls
  induction ls with
  | nil => intro acc _ hacc; simpa [List.foldl] using hacc
  | cons m r ih =>
    intro acc hls hacc
    simp only [List.foldl]
    refine ih _ (fun m' hm' => hls m' (by simp [hm'])) ?hacc
    exact fd_addToGroups_prop acc (normEntry m) hacc (hls m (by simp))

theorem fd_groupByName_names (l : List MEntry) :
    ∀ g ∈ groupByName l, ∀ x ∈ g.2, x.name = g.1 :=
  @fd_groupByName_prop (fun k x => x.name = k) l (fun _ _ => rfl)

theorem fd_groupByName_good (l : List MEntry) (h0 : ∀ e ∈ l, 0 ≤ e.value) :
    ∀ g ∈ groupByName l, ∀ x ∈ g.2, x.name = g.1 ∧ sameAs g.1 = g.1 ∧ 0 ≤ x.value :=
  @fd_groupByName_prop (fun k x => x.name = k ∧ sameAs k = k ∧ 0 ≤ x.value) l
    (fun m hm => ⟨rfl, fd_sameAs_idem m.name, h0 m hm⟩)

theorem fd_addToGroups_keys (gs : List (String × List MEntry)) (e : MEntry) :
    (addToGroups gs e).map Prod.fst
      = if e.name ∈ gs.map Prod.fst then gs.map Prod.fst
        else gs.map Prod.fst ++ [e.name] := by
  induction gs with
  | nil => simp [addToGroups]
  | cons p r ih =>
    obtain ⟨k, es⟩ := p
    simp only [addToGroups]
    by_cases h : k = e.name
    · rw [if_pos h]
      rw [if_pos (by simp [h] : e.name ∈ ((k, es) :: r).map Prod.fst)]
      simp
    · rw [if_neg h]
      by_cases h2 : e.name ∈ r.map Prod.fst
      · rw [if_pos (by simp [h2] : e.name ∈ ((k, es) :: r).map Prod.fst)]
        simp only [List.map, ih, if_pos h2]
      · rw [if_neg (by
          simp only [List.map, List.mem_cons]
          push_neg
          exact ⟨fun hc => h hc.symm, h2⟩)]
        simp only [List.map, ih, if_neg h2, List.cons_append]

theorem fd_groupByName_keys_nodup (l : List MEntry) :
    ((groupByName l).map Prod.fst).Nodup := by
  suffices h : ∀ (ls : List MEntry) (acc : List (String × List MEntry)),
      (acc.map Prod.fst).Nodup →
      ((ls.foldl (fun gs m => addToGroups gs (normEntry m)) acc).map Prod.fst).Nodup by
    exact h l [] (by simp)
  intro ls
  induction ls with
  | nil => intro acc hacc; simpa [List.foldl] using hacc
  | cons m r ih =>
    intro acc hacc
    simp only [List.foldl]
    refine ih _ ?hacc
    rw [fd_addToGroups_keys]
    split_ifs with h
    · exact hacc
    · simp [List.nodup_append, hacc, h]

theorem fd_addToGroups_ne (gs : List (String × List MEntry)) (e : MEntry)
    (h : ∀ g ∈ gs, g.2 ≠ []) : ∀ g ∈ addToGroups gs e, g.2 ≠ [] := by
  induction gs with
  | nil =>
    intro g hg
    simp only [addToGroups, List.mem_singleton] at hg
    subst hg
    simp
  | cons p r ih =>
    obtain ⟨k, es⟩ := p
    simp only [addToGroups]
    by_cases hk : k = e.name
    · rw [if_pos hk]
      intro g hg
      rcases List.mem_cons.mp hg with h1 | h1
      · subst h1; simp
      · exact h g (by simp [h1])
    · rw [if_neg hk]
      intro g hg
      rcases List.mem_cons.mp hg with h1 | h1
      · subst h1; exact h (k, es) (by simp)
      · exact ih (fun g hgm => h g (by simp [hgm])) g h1

theorem fd_groupByName_ne (l : List MEntry) :
    ∀ g ∈ groupByName l, g.2 ≠ [] := by
  suffices h : ∀ (ls : List MEntry) (acc : List (String × List MEntry)),
      (∀ g ∈ acc, g.2 ≠ []) →
      ∀ g ∈ ls.foldl (fun gs m => addToGroups gs (normEntry m)) acc, g.2 ≠ [] by
    exact h l [] (by simp)
  intro ls
  induction ls with
  | nil => intro acc hacc; simpa [List.foldl] using hacc
  | cons m r ih =>
    intro acc hacc
    simp only [List.foldl]
    exact ih _ (fd_addToGroups_ne acc (normEntry m) hacc)

theorem fd_groupByName_fixed (l : List MEntry) :
    ∀ g ∈ groupByName l, sameAs g.1 = g.1 := by
  intro g hg
  obtain ⟨x, hx⟩ := List.exists_mem_of_ne_nil g.2 (fd_groupByName_ne l g hg)
  exact (@fd_groupByName_prop (fun k _ => sameAs k = k) l
    (fun m _ => fd_sameAs_idem m.name) g hg x hx)

theorem fd_cleanedOf_mem (byn : List (String × List MEntry)) (rem : List String)
    (e : MEntry) (h : e ∈ cleanedOf byn rem) :
    ∃ g, g ∈ byn ∧ getBestValue g.2 = some e ∧ g.1 ∉ rem := by
  induction byn with
  | nil => simp [cleanedOf] at h
  | cons p r ih =>
    obtain ⟨k, es⟩ := p
    simp only [cleanedOf] at h
    by_cases hk : k ∈ rem
    · rw [if_pos hk] at h
      obtain ⟨g, hg, hb, hr⟩ := ih h
      exact ⟨g, by simp [hg], hb, hr⟩
    · rw [if_neg hk] at h
      cases hbv : getBestValue es with
      | none =>
        rw [hbv] at h
        obtain ⟨g, hg, hb, hr⟩ := ih h
        exact ⟨g, by simp [hg], hb, hr⟩
      | some b =>
        rw [hbv] at h
        rcases List.mem_cons.mp h with h1 | h1
        · subst h1
          exact ⟨(k, es), by simp, hbv, hk⟩
        · obtain ⟨g, hg, hb, hr⟩ := ih h1
          exact ⟨g, by simp [hg], hb, hr⟩

theorem fd_cleanedOf_sum_le (byn : List (String × List MEntry)) (rem : List String)
    (h : ∀ g ∈ byn, ∀ x ∈ g.2, 0 ≤ x.value) :
    sumVal (cleanedOf byn rem) ≤ (byn.map (fun g => sumVal g.2)).sum := by
  induction byn with
  | nil => simp [cleanedOf, sumVal]
  | cons p r ih =>
    obtain ⟨k, es⟩ := p
    have hes : 0 ≤ sumVal es := fd_sumVal_nonneg es (h (k, es) (by simp))
    have hr := ih (fun g hg x hx => h g (by simp [hg]) x hx)
    simp only [cleanedOf, List.map, List.sum_cons]
    by_cases hk : k ∈ rem
    · rw [if_pos hk]
      linarith
    · rw [if_neg hk]
      cases hbv : getBestValue es with
      | none => linarith
      | some b =>
        have hb := fd_getBestValue_le es b (h (k, es) (by simp)) hbv
        simp only [sumVal]
        linarith

theorem fd_cleanedOf_real_le (byn : List (String × List MEntry)) (rem : List String)
    (h : ∀ g ∈ byn, ∀ x ∈ g.2, x.name = g.1 ∧ 0 ≤ x.value) :
    realTotal (cleanedOf byn rem)
      ≤ (byn.map (fun g => if g.1 ∈ rockTypes then 0 else sumVal g.2)).sum := by
  induction byn with
  | nil => simp [cleanedOf, realTotal]
  | cons p r ih =>
    obtain ⟨k, es⟩ := p
    have hes : 0 ≤ sumVal es :=
      fd_sumVal_nonneg es (fun x hx => (h (k, es) (by simp) x hx).2)
    have hterm : 0 ≤ if k ∈ rockTypes then (0 : ℚ) else sumVal es := by
      split_ifs <;> linarith
    have hr := ih (fun g hg x hx => h g (by simp [hg]) x hx)
    simp only [cleanedOf, List.map, List.sum_cons]
    by_cases hk : k ∈ rem
    · rw [if_pos hk]
      linarith
    · rw [if_neg hk]
      cases hbv : getBestValue es with
      | none => linarith
      | some b =>
        have hbm := fd_getBestValue_mem es b hbv
        have hbn : b.name = k := (h (k, es) (by simp) b hbm).1
        have hb := fd_getBestValue_le es b (fun x hx => (h (k, es) (by simp) x hx).2) hbv
        simp only [realTotal, hbn]
        by_cases hrock : k ∈ rockTypes
        · rw [if_pos hrock, if_pos hrock]
          linarith
        · rw [if_neg hrock, if_neg hrock]
          linarith

theorem fd_cleanedOf_names_sublist (byn : List (String × List MEntry)) (rem : List String)
    (h : ∀ g ∈ byn, ∀ x ∈ g.2, x.name = g.1) :
    ((cleanedOf byn rem).map MEntry.name).Sublist (byn.map Prod.fst) := by
  induction byn with
  | nil => simp [cleanedOf]
  | cons p r ih =>
    obtain ⟨k, es⟩ := p
    have hr := ih (fun g hg x hx => h g (by simp [hg]) x hx)
    simp only [cleanedOf, List.map]
    by_cases hk : k ∈ rem
    · rw [if_pos hk]
      exact hr.cons k
    · rw [if_neg hk]
      cases hbv : getBestValue es with
      | none => exact hr.cons k
      | some b =>
        have hbn : b.name = k := h (k, es) (by simp) b (fd_getBestValue_mem es b hbv)
        simp only [List.map, hbn]
        exact hr.cons₂ k

theorem fd_cleanedOf_entry (byn : List (String × List MEntry)) (rem : List String)
    (e : MEntry) (h : ∀ g ∈ byn, ∀ x ∈ g.2, x.name = g.1)
    (he : e ∈ cleanedOf byn rem) :
    e.name ∉ rem ∧ e.name ∈ byn.map Prod.fst := by
  obtain ⟨g, hg, hb, hr⟩ := fd_cleanedOf_mem byn rem e he
  have hbn : e.name = g.1 := h g hg e (fd_getBestValue_mem g.2 e hb)
  rw [hbn]
  exact ⟨hr, List.mem_map.mpr ⟨g, hg, rfl⟩⟩

theorem fd_pcStep_append (byn : List (String × List MEntry)) (names rem : List String)
    (rule : String × List String) :
    ∃ tl, pcStep byn names rem rule = rem ++ tl := by
  simp only [pcStep]
  split_ifs
  · exact ⟨[], by simp⟩
  · exact ⟨_, rfl⟩
  · exact ⟨_, rfl⟩
  · exact ⟨[], by simp⟩

theorem fd_foldl_pcStep_append (byn : List (String × List MEntry)) (names : List String)
    (rules : List (String × List String)) (rem : List String) :
    ∃ tl, rules.foldl (pcStep byn names) rem = rem ++ tl := by
  induction rules generalizing rem with
  | nil => exact ⟨[], by simp⟩
  | cons rule rs ih =>
    simp only [List.foldl]
    obtain ⟨t1, h1⟩ := fd_pcStep_append byn names rem rule
    obtain ⟨t2, h2⟩ := ih (pcStep byn names rem rule)
    exact ⟨t1 ++ t2, by rw [h2, h1, List.append_assoc]⟩

theorem fd_foldl_pcStep_mono (byn : List (String × List MEntry)) (names : List String)
    (rules : List (String × List String)) (rem : List String) (x : String)
    (hx : x ∈ rem) : x ∈ rules.foldl (pcStep byn names) rem := by
  obtain ⟨tl, htl⟩ := fd_foldl_pcStep_append byn names rules rem
  rw [htl]
  exact List.mem_append_left tl hx

theorem fd_pcStep_id (byn : List (String × List MEntry)) (names rem : List String)
    (rule : String × List String)
    (h : rule.1 ∉ names ∨ rule.2.filter (fun c => decide (c ∈ names)) = []) :
    pcStep byn names rem rule = rem := by
  simp only [pcStep]
  by_cases hm : rule.1 ∈ names
  · rw [if_pos hm]
    rcases h with h | h
    · exact absurd hm h
    · rw [if_pos h]
  · rw [if_neg hm]

theorem fd_foldl_pcStep_id (byn : List (String × List MEntry)) (names : List String)
    (rules : List (String × List String)) (rem : List String)
    (h : ∀ rule ∈ rules, rule.1 ∉ names ∨ rule.2.filter (fun c => decide (c ∈ names)) = []) :
    rules.foldl (pcStep byn names) rem = rem := by
  induction rules with
  | nil => rfl
  | cons rule rs ih =>
    simp only [List.foldl]
    rw [fd_pcStep_id byn names rem rule (h rule (by simp))]
    exact ih (fun r hr => h r (by simp [hr]))

theorem fd_pcStep_dir (byn : List (String × List MEntry)) (names rem : List String)
    (rule : String × List String) (hm : rule.1 ∈ names)
    (hp : rule.2.filter (fun c => decide (c ∈ names)) ≠ []) :
    pcStep byn names rem rule =
      if sumVal (groupOf byn rule.1) >
          ((rule.2.filter (fun c => decide (c ∈ names))).map
            (fun c => sumVal (groupOf byn c))).sum * (3/2)
      then rem ++ rule.2.filter (fun c => decide (c ∈ names))
      else rem ++ [rule.1] := by
  simp only [pcStep]
  rw [if_pos hm, if_neg hp]

theorem fd_fold_dir (byn : List (String × List MEntry)) (names rem0 : List String)
    (rule : String × List String) (hr : rule ∈ parentChild) (hm : rule.1 ∈ names)
    (hp : rule.2.filter (fun c => decide (c ∈ names)) ≠ []) :
    (sumVal (groupOf byn rule.1) >
        ((rule.2.filter (fun c => decide (c ∈ names))).map
          (fun c => sumVal (groupOf byn c))).sum * (3/2) →
      ∀ c ∈ rule.2.filter (fun c => decide (c ∈ names)),
        c ∈ parentChild.foldl (pcStep byn names) rem0)
    ∧ (¬ sumVal (groupOf byn rule.1) >
          ((rule.2.filter (fun c => decide (c ∈ names))).map
            (fun c => sumVal (groupOf byn c))).sum * (3/2) →
        rule.1 ∈ parentChild.foldl (pcStep byn names) rem0) := by
  obtain ⟨s, t, hst⟩ := List.append_of_mem hr
  constructor
  · intro hgt c hc
    rw [hst, List.foldl_append, List.foldl_cons]
    rw [fd_pcStep_dir byn names _ rule hm hp, if_pos hgt]
    exact fd_foldl_pcStep_mono byn names t _ c (List.mem_append_right _ hc)
  · intro hle
    rw [hst, List.foldl_append, List.foldl_cons]
    rw [fd_pcStep_dir byn names _ rule hm hp, if_neg hle]
    exact fd_foldl_pcStep_mono byn names t _ rule.1 (List.mem_append_right _ (by simp))

theorem fd_parent_notin_children :
    ∀ rule ∈ parentChild, rule.1 ∉ rule.2 := by decide

theorem fd_greedyTake_sublist (ls : List MEntry) (running : ℚ) :
    (greedyTake ls running).Sublist ls := by
  induction ls generalizing running with
  | nil => simp [greedyTake]
  | cons m r ih =>
    simp only [greedyTake]
    split_ifs with h
    · exact (ih (running + m.value)).cons₂ m
    · exact (ih running).cons m

theorem fd_greedy_ge50 (ls : List MEntry) (running : ℚ)
    (h0 : ∀ v ∈ ls, 0 ≤ v.value) (h50 : 50 ≤ running) :
    greedyTake ls running = [] ∨ running + sumVal (greedyTake ls running) ≤ 105 := by
  induction ls generalizing running with
  | nil => exact Or.inl rfl
  | cons m r ih =>
    have hm := h0 m (by simp)
    have hr0 : ∀ v ∈ r, 0 ≤ v.value := fun v hv => h0 v (by simp [hv])
    simp only [greedyTake]
    by_cases hc : running + m.value ≤ 105 ∨ running < 50
    · rw [if_pos hc]
      have hle : running + m.value ≤ 105 := hc.resolve_right (by linarith)
      rcases ih (running + m.value) hr0 (by linarith) with h | h
      · right
        rw [h]
        simp only [sumVal]
        linarith
      · right
        simp only [sumVal]
        linarith
    · rw [if_neg hc]
      exact ih running hr0 h50

theorem fd_greedy_lt50 (ls : List MEntry) (running : ℚ)
    (h0 : ∀ v ∈ ls, 0 ≤ v.value ∧ v.value < 50) (hrun0 : 0 ≤ running)
    (hrun : running < 50) :
    running + sumVal (greedyTake ls running) ≤ 105 := by
  induction ls generalizing running with
  | nil => simp only [greedyTake, sumVal]; linarith
  | cons m r ih =>
    obtain ⟨hm0, hm50⟩ := h0 m (by simp)
    have hr0 : ∀ v ∈ r, 0 ≤ v.value ∧ v.value < 50 := fun v hv => h0 v (by simp [hv])
    simp only [greedyTake]
    rw [if_pos (Or.inr hrun)]
    simp only [sumVal]
    by_cases h2 : running + m.value < 50
    · have := ih (running + m.value) hr0 (by linarith) h2
      linarith
    · rcases fd_greedy_ge50 r (running + m.value) (fun v hv => (hr0 v hv).1)
        (by linarith) with h | h
      · rw [h]
        simp only [sumVal]
        linarith
      · linarith

theorem fd_sortDesc_perm (l : List MEntry) : (sortDesc l).Perm l :=
  List.perm_insertionSort _ l

theorem fd_sortDesc_sorted (l : List MEntry) :
    List.Sorted (fun a b : MEntry => b.value ≤ a.value) (sortDesc l) := by
  haveI h1 : IsTotal MEntry (fun a b : MEntry => b.value ≤ a.value) :=
    ⟨fun a b => le_total b.value a.value⟩
  haveI h2 : IsTrans MEntry (fun a b : MEntry => b.value ≤ a.value) :=
    ⟨fun a b c hab hbc => le_trans hbc hab⟩
  exact List.sorted_insertionSort _ l

theorem fd_greedy_main (s : List MEntry)
    (hs : List.Sorted (fun a b : MEntry => b.value ≤ a.value) s)
    (h0 : ∀ v ∈ s, 0 ≤ v.value) :
    sumVal (greedyTake s 0) ≤ 105 ∨ ∃ e, greedyTake s 0 = [e] ∧ 105 < e.value := by
  cases s with
  | nil =>
    left
    simp only [greedyTake, sumVal]
    norm_num
  | cons m r =>
    have hm := h0 m (by simp)
    have hr0 : ∀ v ∈ r, 0 ≤ v.value := fun v hv => h0 v (by simp [hv])
    have hsr := (List.sorted_cons.mp hs).2
    have hsm : ∀ v ∈ r, v.value ≤ m.value := (List.sorted_cons.mp hs).1
    simp only [greedyTake]
    rw [if_pos (Or.inr (by norm_num : (0:ℚ) < 50)), zero_add]
    by_cases hv : 105 < m.value
    · right
      refine ⟨m, ?he, hv⟩
      rcases fd_greedy_ge50 r m.value hr0 (by linarith) with h | h
      · rw [h]
      · exfalso
        have : 0 ≤ sumVal (greedyTake r m.value) :=
          fd_sumVal_nonneg _ (fun v hv =>
            hr0 v ((fd_greedyTake_sublist r m.value).subset hv))
        linarith
    · left
      simp only [sumVal]
      by_cases h50 : 50 ≤ m.value
      · rcases fd_greedy_ge50 r m.value hr0 h50 with h | h
        · rw [h]
          simp only [sumVal]
          linarith
        · linarith
      · have := fd_greedy_lt50 r m.value
          (fun v hv => ⟨hr0 v hv, by have := hsm v hv; linarith⟩) hm (by linarith)
        linarith

theorem fd_normEntry_fixed (e : MEntry) (h : sameAs e.name = e.name) :
    normEntry e = e := by
  cases e with
  | mk n v =>
    simp only [normEntry]
    simp only at h
    rw [h]

theorem fd_addToGroups_fresh (gs : List (String × List MEntry)) (e : MEntry)
    (h : e.name ∉ gs.map Prod.fst) :
    addToGroups gs e = gs ++ [(e.name, [e])] := by
  induction gs with
  | nil => rfl
  | cons p r ih =>
    obtain ⟨k, es⟩ := p
    simp only [List.map, List.mem_cons] at h
    push_neg at h
    simp only [addToGroups]
    rw [if_neg (fun hc => h.1 hc.symm)]
    rw [ih h.2, List.cons_append]

theorem fd_groupByName_clean (out : List MEntry)
    (hnd : (out.map MEntry.name).Nodup)
    (hfix : ∀ e ∈ out, sameAs e.name = e.name) :
    groupByName out = out.map (fun e => (e.name, [e])) := by
  suffices h : ∀ (ls : List MEntry) (acc : List (String × List MEntry)),
      (ls.map MEntry.name).Nodup →
      (∀ e ∈ ls, sameAs e.name = e.name) →
      (∀ e ∈ ls, e.name ∉ acc.map Prod.fst) →
      ls.foldl (fun gs m => addToGroups gs (normEntry m)) acc
        = acc ++ ls.map (fun e => (e.name, [e])) by
    have := h out [] hnd hfix (by simp)
    simpa [groupByName] using this
  intro ls
  induction ls with
  | nil => intro acc _ _ _; simp [List.foldl]
  | cons m r ih =>
    intro acc hnd hfix hfresh
    have hnd' : (m.name :: r.map MEntry.name).Nodup := by simpa using hnd
    have hnd1 : m.name ∉ r.map MEntry.name := (List.nodup_cons.mp hnd').1
    have hnd2 : (r.map MEntry.name).Nodup := (List.nodup_cons.mp hnd').2
    simp only [List.foldl]
    rw [fd_normEntry_fixed m (hfix m (by simp))]
    rw [fd_addToGroups_fresh acc m (hfresh m (by simp))]
    rw [ih (acc ++ [(m.name, [m])]) hnd2
      (fun e he => hfix e (by simp [he]))
      ?hfr]
    · simp
    case hfr =>
      intro e he
      simp only [List.map_append, List.mem_append]
      push_neg
      constructor
      · exact hfresh e (by simp [he])
      · simp only [List.map, List.mem_singleton]
        intro hc
        exact hnd1 (hc ▸ List.mem_map.mpr ⟨e, he, rfl⟩)

theorem fd_cleanedOf_singletons (out : List MEntry) (rem : List String) :
    cleanedOf (out.map (fun e => (e.name, [e]))) rem
      = out.filter (fun e => decide (e.name ∉ rem)) := by
  induction out with
  | nil => rfl
  | cons m r ih =>
    simp only [List.map, cleanedOf, List.filter]
    by_cases h : m.name ∈ rem
    · rw [if_pos h]
      have : (decide (m.name ∉ rem)) = false := by simp [h]
      rw [this, ih]
    · rw [if_neg h]
      have : (decide (m.name ∉ rem)) = true := by simp [h]
      rw [this]
      have hbv : getBestValue [m] = some m := rfl
      rw [hbv, ih]

theorem fd_filter_notin_eq_self (out : List MEntry) (rem : List String)
    (h : ∀ e ∈ out, e.name ∉ rem) :
    out.filter (fun e => decide (e.name ∉ rem)) = out := by
  rw [List.filter_eq_self]
  intro e he
  simp [h e he]

theorem fd_cl_facts (l : List MEntry) (rem : List String)
    (h0 : ∀ e ∈ l, 0 ≤ e.value) :
    ((cleanedOf (groupByName l) rem).map MEntry.name).Nodup
    ∧ (∀ e ∈ cleanedOf (groupByName l) rem,
        sameAs e.name = e.name ∧ 0 ≤ e.value ∧ e.name ∉ rem
          ∧ e.name ∈ (groupByName l).map Prod.fst)
    ∧ sumVal (cleanedOf (groupByName l) rem) ≤ sumVal l
    ∧ realTotal (cleanedOf (groupByName l) rem) ≤ realTotal l := by
  have hgood := fd_groupByName_good l h0
  have hnames := fd_groupByName_names l
  refine ⟨?nd, ?props, ?sum, ?real⟩
  case nd =>
    exact (fd_cleanedOf_names_sublist (groupByName l) rem hnames).nodup
      (fd_groupByName_keys_nodup l)
  case props =>
    intro e he
    obtain ⟨g, hg, hb, hr⟩ := fd_cleanedOf_mem (groupByName l) rem e he
    obtain ⟨hn, hfx, hv⟩ := hgood g hg e (fd_getBestValue_mem g.2 e hb)
    refine ⟨by rw [hn]; exact hfx, hv, by rw [hn]; exact hr, ?hk⟩
    rw [hn]
    exact List.mem_map.mpr ⟨g, hg, rfl⟩
  case sum =>
    calc sumVal (cleanedOf (groupByName l) rem)
        ≤ ((groupByName l).map (fun g => sumVal g.2)).sum :=
          fd_cleanedOf_sum_le (groupByName l) rem (fun g hg x hx => (hgood g hg x hx).2.2)
      _ = sumVal l := fd_groupByName_sum l
  case real =>
    calc realTotal (cleanedOf (groupByName l) rem)
        ≤ ((groupByName l).map (fun g => if g.1 ∈ rockTypes then 0 else sumVal g.2)).sum :=
          fd_cleanedOf_real_le (groupByName l) rem
            (fun g hg x hx => ⟨(hgood g hg x hx).1, (hgood g hg x hx).2.2⟩)
      _ = realTotal l := fd_groupByName_real l

theorem fd_refix (out : List MEntry)
    (hnd : (out.map MEntry.name).Nodup)
    (hfix : ∀ e ∈ out, sameAs e.name = e.name)
    (hsum : sumVal out ≤ 115)
    (hrock : realTotal out ≤ 30 ∨ ∀ e ∈ out, e.name ∉ rockTypes)
    (hpc : 110 < sumVal out → ∀ rule ∈ parentChild, rule.1 ∈ out.map MEntry.name →
           ∀ c ∈ rule.2, c ∉ out.map MEntry.name) :
    fixMinerals out = out := by
  by_cases hne : out = []
  · subst hne; simp [fixMinerals]
  simp only [fixMinerals]
  rw [if_neg hne]
  rw [fd_groupByName_clean out hnd hfix]
  have hkeys : (out.map (fun e => (e.name, [e]))).map Prod.fst = out.map MEntry.name := by
    simp
  rw [hkeys]
  have hname_rem0 : ∀ e ∈ out, e.name ∉ (if realTotal out > 30 then rockTypes else []) := by
    intro e he
    split_ifs with h30
    · rcases hrock with h | h
      · exact absurd h30 (by linarith)
      · exact h e he
    · simp
  by_cases htot : sumVal out ≤ 110
  · rw [if_pos htot, fd_cleanedOf_singletons, fd_filter_notin_eq_self out _ hname_rem0]
  · rw [if_neg htot]
    have htot' : 110 < sumVal out := by linarith
    rw [fd_foldl_pcStep_id _ _ _ _ ?hrules]
    case hrules =>
      intro rule hr
      by_cases hm : rule.1 ∈ out.map MEntry.name
      · right
        rw [List.filter_eq_nil]
        intro c hc
        simp only [decide_eq_true_eq]
        exact hpc htot' rule hr hm c hc
      · left
        exact hm
    rw [fd_cleanedOf_singletons, fd_filter_notin_eq_self out _ hname_rem0]
    rw [if_neg (by linarith : ¬ sumVal out > 115)]

theorem fd_no_pair (l : List MEntry) (rem0 : List String)
    (rule : String × List String) (hr : rule ∈ parentChild)
    (hm : rule.1 ∈ (cleanedOf (groupByName l)
        (parentChild.foldl (pcStep (groupByName l) ((groupByName l).map Prod.fst)) rem0)).map
        MEntry.name)
    (c : String) (hc2 : c ∈ rule.2)
    (hcm : c ∈ (cleanedOf (groupByName l)
        (parentChild.foldl (pcStep (groupByName l) ((groupByName l).map Prod.fst)) rem0)).map
        MEntry.name) : False := by
  have hnames := fd_groupByName_names l
  obtain ⟨ep, hep, hepn⟩ := List.mem_map.mp hm
  obtain ⟨ec, hec, hecn⟩ := List.mem_map.mp hcm
  have hp := fd_cleanedOf_entry _ _ ep hnames hep
  have hc := fd_cleanedOf_entry _ _ ec hnames hec
  rw [hepn] at hp
  rw [hecn] at hc
  have hcpres : c ∈ rule.2.filter
      (fun c => decide (c ∈ (groupByName l).map Prod.fst)) :=
    List.mem_filter.mpr ⟨hc2, by simpa using hc.2⟩
  have hpres : rule.2.filter
      (fun c => decide (c ∈ (groupByName l).map Prod.fst)) ≠ [] :=
    List.ne_nil_of_mem hcpres
  have hdir := fd_fold_dir (groupByName l) ((groupByName l).map Prod.fst) rem0
    rule hr hp.2 hpres
  by_cases hgt : sumVal (groupOf (groupByName l) rule.1) >
      ((rule.2.filter (fun c => decide (c ∈ (groupByName l).map Prod.fst))).map
        (fun c => sumVal (groupOf (groupByName l) c))).sum * (3/2)
  · exact hc.1 (hdir.1 hgt c hcpres)
  · exact hp.1 (hdir.2 hgt)

theorem fd_fixMinerals_singleton (e : MEntry) (hfix : sameAs e.name = e.name) :
    fixMinerals [e] = [e] := by
  have hbyn : groupByName [e] = [(e.name, [e])] := by
    simp [groupByName, List.foldl, addToGroups, fd_normEntry_fixed e hfix]
  have hcl : ∀ rem : List String,
      cleanedOf [(e.name, [e])] rem = if e.name ∈ rem then [] else [e] := by
    intro rem
    simp only [cleanedOf]
    split_ifs with h <;> rfl
  have hrem0 : e.name ∉ (if realTotal [e] > 30 then rockTypes else []) := by
    by_cases hrock : e.name ∈ rockTypes
    · have hz : realTotal [e] = 0 := by simp [realTotal, hrock]
      rw [hz, if_neg (by norm_num : ¬ (0:ℚ) > 30)]
      simp
    · split_ifs with h30
      · exact hrock
      · simp
  simp only [fixMinerals]
  rw [if_neg (by simp : ¬ ([e] : List MEntry) = [])]
  rw [hbyn]
  have hkeys : ([(e.name, [e])] : List (String × List MEntry)).map Prod.fst = [e.name] := by
    simp
  rw [hkeys]
  by_cases htot : sumVal [e] ≤ 110
  · rw [if_pos htot, hcl, if_neg hrem0]
  · rw [if_neg htot]
    rw [fd_foldl_pcStep_id _ _ _ _ ?hrules]
    case hrules =>
      intro rule hr
      by_cases hm : rule.1 ∈ [e.name]
      · right
        rw [List.filter_eq_nil]
        intro c hc
        simp only [List.mem_singleton, decide_eq_true_eq]
        intro hce
        simp only [List.mem_singleton] at hm
        exact fd_parent_notin_children rule hr ((hm.trans hce.symm) ▸ hc)
      · left
        exact hm
    rw [hcl, if_neg hrem0]
    by_cases h115 : sumVal [e] > 115
    · rw [if_pos h115]
      have hsort : sortDesc [e] = [e] := rfl
      rw [hsort]
      simp only [greedyTake]
      rw [if_pos (Or.inr (by norm_num : (0:ℚ) < 50))]
    · rw [if_neg h115]

/-- C6: applying the Taxonomy Reconciler a second time to its own output yields
the same list, provided every input percentage is nonnegative (the claim's
unrestricted form fails, see the counterexample). -/
theorem C6_amended (l : List MEntry) (h0 : ∀ e ∈ l, 0 ≤ e.value) :
    fixMinerals (fixMinerals l) = fixMinerals l := by
  by_cases hne : l = []
  · subst hne
    have h : fixMinerals ([] : List MEntry) = [] := by simp [fixMinerals]
    rw [h, h]
  by_cases htot : sumVal l ≤ 110
  · have hout : fixMinerals l
        = cleanedOf (groupByName l) (if realTotal l > 30 then rockTypes else []) := by
      simp only [fixMinerals]
      rw [if_neg hne, if_pos htot]
    rw [hout]
    obtain ⟨hnd, hprops, hsum, hreal⟩ :=
      fd_cl_facts l (if realTotal l > 30 then rockTypes else []) h0
    refine fd_refix _ hnd (fun e he => (hprops e he).1) (by linarith) ?rock ?pc
    case rock =>
      by_cases h30 : realTotal l > 30
      · right
        intro e he
        have hmem := (hprops e he).2.2.1
        rw [if_pos h30] at hmem
        exact hmem
      · left
        have h30' : realTotal l ≤ 30 := le_of_not_lt h30
        linarith
    case pc =>
      intro h110
      exact absurd h110 (not_lt.mpr (le_trans hsum htot))
  · have hout : fixMinerals l =
        (if sumVal (cleanedOf (groupByName l)
              (parentChild.foldl (pcStep (groupByName l) ((groupByName l).map Prod.fst))
                (if realTotal l > 30 then rockTypes else []))) > 115
         then greedyTake (sortDesc (cleanedOf (groupByName l)
              (parentChild.foldl (pcStep (groupByName l) ((groupByName l).map Prod.fst))
                (if realTotal l > 30 then rockTypes else [])))) 0
         else cleanedOf (groupByName l)
              (parentChild.foldl (pcStep (groupByName l) ((groupByName l).map Prod.fst))
                (if realTotal l > 30 then rockTypes else []))) := by
      simp only [fixMinerals]
      rw [if_neg hne, if_neg htot]
    rw [hout]
    obtain ⟨hnd, hprops, hsum, hreal⟩ :=
      fd_cl_facts l
        (parentChild.foldl (pcStep (groupByName l) ((groupByName l).map Prod.fst))
          (if realTotal l > 30 then rockTypes else [])) h0
    have hrock_cl : realTotal (cleanedOf (groupByName l)
          (parentChild.foldl (pcStep (groupByName l) ((groupByName l).map Prod.fst))
            (if realTotal l > 30 then rockTypes else []))) ≤ 30
        ∨ ∀ e ∈ cleanedOf (groupByName l)
            (parentChild.foldl (pcStep (groupByName l) ((groupByName l).map Prod.fst))
              (if realTotal l > 30 then rockTypes else [])), e.name ∉ rockTypes := by
      by_cases h30 : realTotal l > 30
      · right
        intro e he hrocks
        apply (hprops e he).2.2.1
        apply fd_foldl_pcStep_mono
        rw [if_pos h30]
        exact hrocks
      · left
        have h30' : realTotal l ≤ 30 := le_of_not_lt h30
        linarith
    have hpc_cl : ∀ rule ∈ parentChild,
        rule.1 ∈ (cleanedOf (groupByName l)
          (parentChild.foldl (pcStep (groupByName l) ((groupByName l).map Prod.fst))
            (if realTotal l > 30 then rockTypes else []))).map MEntry.name →
        ∀ c ∈ rule.2, c ∉ (cleanedOf (groupByName l)
          (parentChild.foldl (pcStep (groupByName l) ((groupByName l).map Prod.fst))
            (if realTotal l > 30 then rockTypes else []))).map MEntry.name :=
      fun rule hr hm c hc hcm => fd_no_pair l _ rule hr hm c hc hcm
    by_cases h115 : sumVal (cleanedOf (groupByName l)
        (parentChild.foldl (pcStep (groupByName l) ((groupByName l).map Prod.fst))
          (if realTotal l > 30 then rockTypes else []))) > 115
    · rw [if_pos h115]
      have hperm := fd_sortDesc_perm (cleanedOf (groupByName l)
        (parentChild.foldl (pcStep (groupByName l) ((groupByName l).map Prod.fst))
          (if realTotal l > 30 then rockTypes else [])))
      have hsorted := fd_sortDesc_sorted (cleanedOf (groupByName l)
        (parentChild.foldl (pcStep (groupByName l) ((groupByName l).map Prod.fst))
          (if realTotal l > 30 then rockTypes else [])))
      have hnn_s : ∀ v ∈ sortDesc (cleanedOf (groupByName l)
          (parentChild.foldl (pcStep (groupByName l) ((groupByName l).map Prod.fst))
            (if realTotal l > 30 then rockTypes else []))), 0 ≤ v.value :=
        fun v hv => (hprops v (hperm.subset hv)).2.1
      have hsub := fd_greedyTake_sublist (sortDesc (cleanedOf (groupByName l)
        (parentChild.foldl (pcStep (groupByName l) ((groupByName l).map Prod.fst))
          (if realTotal l > 30 then rockTypes else [])))) 0
      have hmem_out : ∀ e ∈ greedyTake (sortDesc (cleanedOf (groupByName l)
          (parentChild.foldl (pcStep (groupByName l) ((groupByName l).map Prod.fst))
            (if realTotal l > 30 then rockTypes else [])))) 0,
          e ∈ cleanedOf (groupByName l)
            (parentChild.foldl (pcStep (groupByName l) ((groupByName l).map Prod.fst))
              (if realTotal l > 30 then rockTypes else [])) :=
        fun e he => hperm.subset (hsub.subset he)
      rcases fd_greedy_main _ hsorted hnn_s with hle | ⟨e, heq, hev⟩
      · refine fd_refix _ ?nd (fun e he => (hprops e (hmem_out e he)).1) (by linarith)
          ?rock ?pc
        case nd =>
          exact (hsub.map MEntry.name).nodup
            (((hperm.map MEntry.name).nodup_iff).mpr hnd)
        case rock =>
          rcases hrock_cl with h | h
          · left
            have h1 := fd_realTotal_sublist_le hsub hnn_s
            rw [fd_realTotal_perm hperm] at h1
            linarith
          · right
            exact fun e he => h e (hmem_out e he)
        case pc =>
          intro h110
          exact absurd h110 (not_lt.mpr (by linarith))
      · rw [heq]
        refine fd_fixMinerals_singleton e ?hfx
        exact (hprops e (hmem_out e (by rw [heq]; simp))).1
    · rw [if_neg h115]
      refine fd_refix _ hnd (fun e he => (hprops e he).1) (le_of_not_lt h115) hrock_cl
        (fun _ => hpc_cl)

/-- C6 counterexample: with a negative `value_pct` the reconciler is not
idempotent.  The first pass (total 100 ≤ 110) merely dedupes; the second pass
sees total 150 > 110, fires the Plagioclase/Anorthite parent-child rule
(120 > 1.5·30) and drops Anorthite. -/
theorem C6_counterexample :
    fixMinerals [⟨"Plagioclase", 120⟩, ⟨"Plagioclase", -50⟩, ⟨"Anorthite", 30⟩]
      = [⟨"Plagioclase", 120⟩, ⟨"Anorthite", 30⟩]
    ∧ fixMinerals [⟨"Plagioclase", 120⟩, ⟨"Anorthite", 30⟩] = [⟨"Plagioclase", 120⟩]
    ∧ fixMinerals (fixMinerals
        [⟨"Plagioclase", 120⟩, ⟨"Plagioclase", -50⟩, ⟨"Anorthite", 30⟩])
      ≠ fixMinerals [⟨"Plagioclase", 120⟩, ⟨"Plagioclase", -50⟩, ⟨"Anorthite", 30⟩] := by
  have hbest : getBestValue [⟨"Plagioclase", 120⟩, ⟨"Plagioclase", -50⟩]
      = some ⟨"Plagioclase", 120⟩ := by
    simp only [getBestValue, List.foldl]
    rw [if_neg (by norm_num : ¬ (120:ℚ) < -50)]
  have hbyn1 : groupByName [⟨"Plagioclase", 120⟩, ⟨"Plagioclase", -50⟩, ⟨"Anorthite", 30⟩]
      = [("Plagioclase", [⟨"Plagioclase", 120⟩, ⟨"Plagioclase", -50⟩]),
         ("Anorthite", [⟨"Anorthite", 30⟩])] := by
    simp [groupByName, addToGroups, normEntry, sameAs]
  have hcl1 : cleanedOf [("Plagioclase", [⟨"Plagioclase", 120⟩, ⟨"Plagioclase", -50⟩]),
        ("Anorthite", [⟨"Anorthite", 30⟩])] rockTypes
      = [⟨"Plagioclase", 120⟩, ⟨"Anorthite", 30⟩] := by
    have hbestA : getBestValue [⟨"Anorthite", 30⟩] = some ⟨"Anorthite", 30⟩ := rfl
    simp [cleanedOf, hbest, hbestA, rockTypes]
  have htot1 : sumVal [⟨"Plagioclase", 120⟩, ⟨"Plagioclase", -50⟩, ⟨"Anorthite", 30⟩]
      = 100 := by
    norm_num [sumVal]
  have hreal1 : realTotal [⟨"Plagioclase", 120⟩, ⟨"Plagioclase", -50⟩, ⟨"Anorthite", 30⟩]
      = 100 := by
    simp [realTotal, rockTypes]
    norm_num
  have h1 : fixMinerals [⟨"Plagioclase", 120⟩, ⟨"Plagioclase", -50⟩, ⟨"Anorthite", 30⟩]
      = [⟨"Plagioclase", 120⟩, ⟨"Anorthite", 30⟩] := by
    simp only [fixMinerals]
    rw [if_neg (by simp :
      ¬ [(⟨"Plagioclase", 120⟩ : MEntry), ⟨"Plagioclase", -50⟩, ⟨"Anorthite", 30⟩] = [])]
    rw [hbyn1]
    simp only [List.map]
    rw [hreal1, htot1]
    rw [if_pos (by norm_num : (100:ℚ) > 30)]
    rw [if_pos (by norm_num : (100:ℚ) ≤ 110)]
    rw [hcl1]
  have hbyn2 : groupByName [⟨"Plagioclase", 120⟩, ⟨"Anorthite", 30⟩]
      = [("Plagioclase", [⟨"Plagioclase", 120⟩]), ("Anorthite", [⟨"Anorthite", 30⟩])] := by
    simp [groupByName, addToGroups, normEntry, sameAs]
  have hstep1 : pcStep [("Plagioclase", [⟨"Plagioclase", 120⟩]),
        ("Anorthite", [⟨"Anorthite", 30⟩])]
      ["Plagioclase", "Anorthite"] rockTypes
      ("Plagioclase", ["Anorthite", "Labradorite", "Bytownite", "Albite"])
      = rockTypes ++ ["Anorthite"] := by
    simp [pcStep, groupOf, sumVal]
    norm_num
  have hstep2 : ∀ r : String × List String, r.1 ∉ ["Plagioclase", "Anorthite"] →
      pcStep [("Plagioclase", [⟨"Plagioclase", 120⟩]), ("Anorthite", [⟨"Anorthite", 30⟩])]
        ["Plagioclase", "Anorthite"] (rockTypes ++ ["Anorthite"]) r
      = rockTypes ++ ["Anorthite"] := by
    intro r hr
    simp [pcStep, hr]
  have hrem2 : List.foldl (pcStep [("Plagioclase", [⟨"Plagioclase", 120⟩]),
        ("Anorthite", [⟨"Anorthite", 30⟩])] ["Plagioclase", "Anorthite"])
      rockTypes parentChild = rockTypes ++ ["Anorthite"] := by
    simp only [parentChild, List.foldl, hstep1]
    rw [hstep2 _ (by simp), hstep2 _ (by simp), hstep2 _ (by simp)]
  have hcl2 : cleanedOf [("Plagioclase", [⟨"Plagioclase", 120⟩]),
        ("Anorthite", [⟨"Anorthite", 30⟩])] (rockTypes ++ ["Anorthite"])
      = [⟨"Plagioclase", 120⟩] := by
    simp [cleanedOf, getBestValue, rockTypes]
  have htot2 : sumVal [⟨"Plagioclase", 120⟩, ⟨"Anorthite", 30⟩] = 150 := by
    norm_num [sumVal]
  have hreal2 : realTotal [⟨"Plagioclase", 120⟩, ⟨"Anorthite", 30⟩] = 150 := by
    simp [realTotal, rockTypes]
    norm_num
  have hsv : sumVal [(⟨"Plagioclase", 120⟩ : MEntry)] = 120 := by
    norm_num [sumVal]
  have h2 : fixMinerals [⟨"Plagioclase", 120⟩, ⟨"Anorthite", 30⟩]
      = [⟨"Plagioclase", 120⟩] := by
    simp only [fixMinerals]
    rw [if_neg (by simp :
      ¬ [(⟨"Plagioclase", 120⟩ : MEntry), ⟨"Anorthite", 30⟩] = [])]
    rw [hbyn2]
    simp only [List.map]
    rw [hreal2, htot2]
    rw [if_pos (by norm_num : (150:ℚ) > 30)]
    rw [if_neg (by norm_num : ¬ (150:ℚ) ≤ 110)]
    rw [hrem2, hcl2, hsv]
    rw [if_pos (by norm_num : (120:ℚ) > 115)]
    have hsort : sortDesc [(⟨"Plagioclase", 120⟩ : MEntry)]
        = [(⟨"Plagioclase", 120⟩ : MEntry)] := rfl
    rw [hsort]
    simp only [greedyTake]
    rw [if_pos (Or.inr (by norm_num : (0:ℚ) < 50))]
  refine ⟨h1, h2, ?hne⟩
  rw [h1, h2]
  simp

/-- C6 witness: the amended idempotence theorem applied at a concrete
nonnegative input. -/
theorem C6_amended_witness :
    fixMinerals (fixMinerals [⟨"Plagioclase", 45⟩, ⟨"Anorthite", 40⟩])
      = fixMinerals [⟨"Plagioclase", 45⟩, ⟨"Anorthite", 40⟩] := by
  refine C6_amended [⟨"Plagioclase", 45⟩, ⟨"Anorthite", 40⟩] ?h0
  intro e he
  simp only [List.mem_cons, List.not_mem_nil, or_false] at he
  rcases he with rfl | rfl
  · norm_num
  · norm_num

/-- C1 counterexample: with raw inputs `{Plagioclase: 45, Anorthite: 40}` the
total is 85 ≤ 110, so `fix_minerals` never reaches the parent/child loop and
keeps both entries; the claim (and the spec example) dictates `{Anorthite: 40}`. -/
theorem C1_counterexample :
    fixMinerals [⟨"Plagioclase", 45⟩, ⟨"Anorthite", 40⟩]
      = [⟨"Plagioclase", 45⟩, ⟨"Anorthite", 40⟩]
    ∧ fixMinerals [⟨"Plagioclase", 45⟩, ⟨"Anorthite", 40⟩] ≠ [⟨"Anorthite", 40⟩] := by
  have hbyn : groupByName [⟨"Plagioclase", 45⟩, ⟨"Anorthite", 40⟩]
      = [("Plagioclase", [⟨"Plagioclase", 45⟩]), ("Anorthite", [⟨"Anorthite", 40⟩])] := by
    simp [groupByName, addToGroups, normEntry, sameAs]
  have hcl : cleanedOf [("Plagioclase", [⟨"Plagioclase", 45⟩]),
        ("Anorthite", [⟨"Anorthite", 40⟩])] rockTypes
      = [⟨"Plagioclase", 45⟩, ⟨"Anorthite", 40⟩] := by
    simp [cleanedOf, getBestValue, rockTypes]
  have htot : sumVal [⟨"Plagioclase", 45⟩, ⟨"Anorthite", 40⟩] = 85 := by
    norm_num [sumVal]
  have hreal : realTotal [⟨"Plagioclase", 45⟩, ⟨"Anorthite", 40⟩] = 85 := by
    simp [realTotal, rockTypes]
    norm_num
  have h1 : fixMinerals [⟨"Plagioclase", 45⟩, ⟨"Anorthite", 40⟩]
      = [⟨"Plagioclase", 45⟩, ⟨"Anorthite", 40⟩] := by
    simp only [fixMinerals]
    rw [if_neg (by simp :
      ¬ [(⟨"Plagioclase", 45⟩ : MEntry), ⟨"Anorthite", 40⟩] = [])]
    rw [hbyn]
    simp only [List.map]
    rw [hreal, htot]
    rw [if_pos (by norm_num : (85:ℚ) > 30)]
    rw [if_pos (by norm_num : (85:ℚ) ≤ 110)]
    rw [hcl]
  refine ⟨h1, ?hne⟩
  rw [h1]
  simp

/-- C1: the parent/child rule fires only in the `total > 110` branch; under
that proviso, whenever a known parent and at least one of its children are
both present among the grouped names, either every child of the rule vanishes
from the output (parent value above 1.5 times the present children's summed
value) or the parent vanishes (otherwise). -/
theorem C1_amended (l : List MEntry) (rule : String × List String)
    (hr : rule ∈ parentChild)
    (htot : 110 < sumVal l)
    (hm : rule.1 ∈ (groupByName l).map Prod.fst)
    (hp : rule.2.filter (fun c => decide (c ∈ (groupByName l).map Prod.fst)) ≠ []) :
    (sumVal (groupOf (groupByName l) rule.1) >
        ((rule.2.filter (fun c => decide (c ∈ (groupByName l).map Prod.fst))).map
          (fun c => sumVal (groupOf (groupByName l) c))).sum * (3/2) →
      ∀ c ∈ rule.2, ∀ e ∈ fixMinerals l, e.name ≠ c)
    ∧ (¬ sumVal (groupOf (groupByName l) rule.1) >
        ((rule.2.filter (fun c => decide (c ∈ (groupByName l).map Prod.fst))).map
          (fun c => sumVal (groupOf (groupByName l) c))).sum * (3/2) →
      ∀ e ∈ fixMinerals l, e.name ≠ rule.1) := by
  have hne : l ≠ [] := by
    intro h
    subst h
    norm_num [sumVal] at htot
  have hout : fixMinerals l =
      (if sumVal (cleanedOf (groupByName l)
            (parentChild.foldl (pcStep (groupByName l) ((groupByName l).map Prod.fst))
              (if realTotal l > 30 then rockTypes else []))) > 115
       then greedyTake (sortDesc (cleanedOf (groupByName l)
            (parentChild.foldl (pcStep (groupByName l) ((groupByName l).map Prod.fst))
              (if realTotal l > 30 then rockTypes else [])))) 0
       else cleanedOf (groupByName l)
            (parentChild.foldl (pcStep (groupByName l) ((groupByName l).map Prod.fst))
              (if realTotal l > 30 then rockTypes else []))) := by
    simp only [fixMinerals]
    rw [if_neg hne, if_neg (not_le.mpr htot)]
  have hout_mem : ∀ e ∈ fixMinerals l,
      e ∈ cleanedOf (groupByName l)
        (parentChild.foldl (pcStep (groupByName l) ((groupByName l).map Prod.fst))
          (if realTotal l > 30 then rockTypes else [])) := by
    intro e he
    rw [hout] at he
    by_cases h : sumVal (cleanedOf (groupByName l)
        (parentChild.foldl (pcStep (groupByName l) ((groupByName l).map Prod.fst))
          (if realTotal l > 30 then rockTypes else []))) > 115
    · rw [if_pos h] at he
      exact (fd_sortDesc_perm _).subset ((fd_greedyTake_sublist _ 0).subset he)
    · rw [if_neg h] at he
      exact he
  have hnames := fd_groupByName_names l
  have hdir := fd_fold_dir (groupByName l) ((groupByName l).map Prod.fst)
    (if realTotal l > 30 then rockTypes else []) rule hr hm hp
  constructor
  · intro hgt c hc e he heq
    have hcl := fd_cleanedOf_entry _ _ e hnames (hout_mem e he)
    by_cases hcn : c ∈ (groupByName l).map Prod.fst
    · have hcp : c ∈ rule.2.filter
          (fun c => decide (c ∈ (groupByName l).map Prod.fst)) :=
        List.mem_filter.mpr ⟨hc, by simpa using hcn⟩
      exact hcl.1 (heq ▸ hdir.1 hgt c hcp)
    · exact hcn (heq ▸ hcl.2)
  · intro hle e he heq
    have hcl := fd_cleanedOf_entry _ _ e hnames (hout_mem e he)
    exact hcl.1 (heq ▸ hdir.2 hle)

/-- C1 witness: the amended parent/child theorem at the spec's own magnitudes
scaled into the `total > 110` regime.  With `{Plagioclase: 90, Anorthite: 80}`
(90 ≤ 1.5·80) the parent is dropped; with `{Plagioclase: 90, Anorthite: 25}`
(90 > 1.5·25) the child is dropped. -/
theorem C1_amended_witness :
    ((⟨"Plagioclase", 90⟩ : MEntry)
        ∈ fixMinerals [⟨"Plagioclase", 90⟩, ⟨"Anorthite", 80⟩]) = False
    ∧ ((⟨"Anorthite", 25⟩ : MEntry)
        ∈ fixMinerals [⟨"Plagioclase", 90⟩, ⟨"Anorthite", 25⟩]) = False := by
  have hbyn1 : groupByName [⟨"Plagioclase", 90⟩, ⟨"Anorthite", 80⟩]
      = [("Plagioclase", [⟨"Plagioclase", 90⟩]), ("Anorthite", [⟨"Anorthite", 80⟩])] := by
    simp [groupByName, addToGroups, normEntry, sameAs]
  have hbyn2 : groupByName [⟨"Plagioclase", 90⟩, ⟨"Anorthite", 25⟩]
      = [("Plagioclase", [⟨"Plagioclase", 90⟩]), ("Anorthite", [⟨"Anorthite", 25⟩])] := by
    simp [groupByName, addToGroups, normEntry, sameAs]
  constructor
  · apply eq_false
    intro hmem
    refine (C1_amended [⟨"Plagioclase", 90⟩, ⟨"Anorthite", 80⟩]
        ("Plagioclase", ["Anorthite", "Labradorite", "Bytownite", "Albite"])
        (by decide) (by norm_num [sumVal]) (by rw [hbyn1]; decide)
        (by rw [hbyn1]; decide)).2 ?hle _ hmem rfl
    case hle =>
      rw [hbyn1]
      simp [groupOf, sumVal]
      norm_num
  · apply eq_false
    intro hmem
    refine (C1_amended [⟨"Plagioclase", 90⟩, ⟨"Anorthite", 25⟩]
        ("Plagioclase", ["Anorthite", "Labradorite", "Bytownite", "Albite"])
        (by decide) (by norm_num [sumVal]) (by rw [hbyn2]; decide)
        (by rw [hbyn2]; decide)).1 ?hgt "Anorthite" (by decide) _ hmem rfl
    case hgt =>
      rw [hbyn2]
      simp [groupOf, sumVal]
      norm_num

end FixDup
